import Mathlib

/-!
Verification of the time-expanded connection-graph core of `take-me-there`.

Shallow embedding conventions:
* `chrono::NaiveDateTime` is modelled as `Int`, a count of seconds since the Unix
  epoch (chrono orders naive datetimes totally and subtracts them to a signed
  duration, whose `num_days` is seconds divided by 86400 truncated toward zero;
  the division below is only reached when the difference is non-negative, where
  truncation and floor agree).
* `chrono::NaiveTime` is modelled as `Nat`, a count of seconds since midnight.
  Subtraction of two times (`chrono::Duration::num_seconds`) is integer
  subtraction in `Int`.
* `bit_set::BitSet` is modelled as a `List Nat` of the set bit indices with
  `List.contains` as the membership test.
* `petgraph::graphmap::DiGraphMap<usize, i64>` is modelled as a list of
  `(source, target, weight)` triples with at most one entry per
  `(source, target)` key; `add_edge` updates the weight in place when the key is
  already present and appends otherwise, exactly as `GraphMap::add_edge` does.
* Rust `HashMap` iteration order for the station registry is not deterministic;
  the builder is embedded against the concrete first-seen deduplication order of
  the feed's stop list, one admissible iteration order.  Every statement proved
  below about the numbering depends only on the layout produced for whichever
  order is used, matching §9 of the specification.
* A Rust panic (index out of range, `Option::unwrap` on `None`, the
  `passings.len() - 1` underflow) is modelled by returning `none` from the
  corresponding `Option`-valued function.
-/

/-- `structure.rs`: an `OperatingPeriod` is a date range plus a day-offset bit set. -/
structure OperatingPeriod where
  from_date : Int
  to_date : Int
  day_bits : List Nat
deriving DecidableEq

/-- `OperatingPeriod::is_valid` from `structure.rs`: inside the range and the bit
for the day offset `(date - from_date).num_days()` is set. -/
def OperatingPeriod.is_valid (p : OperatingPeriod) (date : Int) : Bool :=
  if p.from_date > date || date > p.to_date then false
  else p.day_bits.contains (((date - p.from_date) / 86400).toNat)

/-- `structure.rs`: a `Passing` is a stop index with optional arrival and
departure times of day. -/
structure Passing where
  stop_point : Nat
  arrival : Option Nat
  departure : Option Nat
deriving DecidableEq

/-- `structure.rs`: a `Journey` is a passing sequence, a validity window and a
list of day-type indices. -/
structure Journey where
  passings : List Passing
  valid_from : Int
  valid_to : Int
  days : List Nat
deriving DecidableEq

/-- `structure.rs`: a `SubMultiConnection` groups the operating periods, day
types and journeys of one source file. -/
structure SubMultiConnection where
  operating_periods : List OperatingPeriod
  day_types : List (Option Nat)
  journeys : List Journey
deriving DecidableEq

/-- `structure.rs`: a `MultiConnection` is the merged feed: the global stop-name
list plus the per-file sub-connections. -/
structure MultiConnection where
  stops : List String
  connections : List SubMultiConnection
deriving DecidableEq

/-- The body of the day-type loop in `Journey::is_valid`: day type `day_idx`
validates `date` when it is associated with an operating period that is valid on
`date`.  An out-of-range day-type or period index panics in the source; the
claims are evaluated on well-formed feeds (spec §7) where every index is in
range, and the theorems that need it carry that hypothesis explicitly. -/
def dayTypeValidOn (parent : SubMultiConnection) (day_idx : Nat) (date : Int) : Bool :=
  match parent.day_types.getD day_idx none with
  | some period_idx =>
    match parent.operating_periods[period_idx]? with
    | some period => period.is_valid date
    | none => false
  | none => false

/-- `Journey::is_valid` from `structure.rs`: inside the validity window, and some
referenced day type (in trip order, short-circuiting) validates the date. -/
def Journey.is_valid (j : Journey) (parent : SubMultiConnection) (date : Int) : Bool :=
  if j.valid_from > date || date > j.valid_to then false
  else j.days.any (fun day_idx => dayTypeValidOn parent day_idx date)

/-- Modelled from the spec: `MultiConnection::iter_valid_journeys` is called by
the graph builder in `connection_graph.rs` but its definition is not among the
provided sources.  Per §6 of the specification it produces the sequence of trips
valid on the reference date, matching the inline loop in `main.rs` that walks
every sub-connection and keeps the journeys for which `Journey::is_valid` holds
against their parent sub-connection. -/
def MultiConnection.iter_valid_journeys (mc : MultiConnection) (date : Int) : List Journey :=
  mc.connections.flatMap (fun sub => sub.journeys.filter (fun j => j.is_valid sub date))

/-- One directed weighted edge of the graph: `(source, target, weight)`. -/
abbrev Edge := Nat × Nat × Int

/-- `GraphMap::add_edge`: if an edge with the same `(source, target)` key exists
its weight is replaced (the later write wins), otherwise the edge is added. -/
def addEdge (g : List Edge) (a b : Nat) (w : Int) : List Edge :=
  if g.any (fun e => e.1 = a && e.2.1 = b) then
    g.map (fun e => if e.1 = a ∧ e.2.1 = b then (a, b, w) else e)
  else g ++ [(a, b, w)]

/-- A sequence of `add_edge` calls, in order. -/
def addEdges (g : List Edge) (es : List Edge) : List Edge :=
  es.foldl (fun acc e => addEdge acc e.1 e.2.1 e.2.2) g

/-- The `(source, target)` keys of an edge list. -/
def edgeKeys (g : List Edge) : List (Nat × Nat) :=
  g.map (fun e => (e.1, e.2.1))

/-- Rust's derived `PartialOrd` on `Option<NaiveTime>`: `None` is below every
`Some`, and two `Some`s compare by the contained time.  This is the comparison
performed by `end_st.arrival <= start_st.departure` in `connect_between_stations`. -/
def optLe : Option Nat → Option Nat → Bool
  | none, _ => true
  | some _, none => false
  | some a, some b => a ≤ b

/-- Insertion into the ascending key list of a `BTreeMap<NaiveTime, _>`:
inserting an existing key leaves the key set unchanged. -/
def insertSorted (t : Nat) : List Nat → List Nat
  | [] => [t]
  | x :: xs =>
    if t < x then t :: x :: xs
    else if t = x then x :: xs
    else x :: insertSorted t xs

/-- The arrival time (if present) followed by the departure time (if present) of
a passing — the two `BTreeMap` insertions performed for it by
`populate_station_info_and_count_verts`. -/
def passingTimes (p : Passing) : List Nat :=
  (match p.arrival with | some t => [t] | none => []) ++
    (match p.departure with | some t => [t] | none => [])

/-- The first phase of `populate_station_info_and_count_verts`, restricted to one
station: the ascending set of distinct clock times at which some journey valid on
`date` passes the station named `name` (arrival or departure).  The source
indexes `connections.stops[pass.stop_point]`, which panics when out of range; an
out-of-range stop point contributes the name `""` here, and the claims are
evaluated on well-formed feeds where every stop point is in range. -/
def collectStationTimes (mc : MultiConnection) (date : Int) (name : String) : List Nat :=
  ((mc.iter_valid_journeys date).flatMap (fun j =>
    j.passings.flatMap (fun p =>
      if mc.stops.getD p.stop_point "" = name then passingTimes p else []))).foldl
    (fun acc t => insertSorted t acc) []

/-- First-seen deduplication of the stop-name list: the key set of the
`HashMap` built by `prepare_station_info`, in one admissible iteration order. -/
def dedupFirstAux : List String → List String → List String
  | [], _ => []
  | x :: xs, seen =>
    if x ∈ seen then dedupFirstAux xs seen else x :: dedupFirstAux xs (x :: seen)

/-- The station iteration order used to embed the builder. -/
def stationOrder (mc : MultiConnection) : List String :=
  dedupFirstAux mc.stops []

/-- `connection_graph.rs`: the per-station record `Station<usize>` after
numbering: the `Init` id, the `Final` id, and the ascending `time → id` map.
The station's registry key is carried alongside as `name`. -/
structure StationBlock where
  name : String
  init : Nat
  fin : Nat
  times : List (Nat × Nat)
deriving DecidableEq, Repr

/-- Id assignment for the time map of one station: each successive time receives
the next consecutive id. -/
def assignTimes : List Nat → Nat → List (Nat × Nat)
  | [], _ => []
  | t :: ts, base => (t, base) :: assignTimes ts (base + 1)

/-- The numbering loop of `populate_station_info_and_count_verts`: walk the
stations in iteration order threading the vertex counter; each station gets
`init = counter`, `fin = counter + 1`, then one id per distinct time in ascending
time order.  Returns the blocks and the final counter (the vertex count). -/
def numberStations (f : String → List Nat) : List String → Nat → List StationBlock × Nat
  | [], base => ([], base)
  | n :: ns, base =>
    let ts := f n
    let rest := numberStations f ns (base + 2 + ts.length)
    ({ name := n, init := base, fin := base + 1, times := assignTimes ts (base + 2) } :: rest.1,
      rest.2)

/-- `populate_station_info_and_count_verts` for a feed and date: the numbered
station blocks and the vertex count. -/
def populate_station_info_and_count_verts (mc : MultiConnection) (date : Int) :
    List StationBlock × Nat :=
  numberStations (collectStationTimes mc date) (stationOrder mc) 0

/-- The `stations_by_ids` map: block-start id → station name, inserted in
numbering order (hence with ascending keys). -/
def byIds (blocks : List StationBlock) : List (Nat × String) :=
  blocks.map (fun b => (b.init, b.name))

/-- All vertex ids owned by one station block: `Init`, `Final`, then the time
vertex ids. -/
def blockIds (b : StationBlock) : List Nat :=
  b.init :: b.fin :: b.times.map (fun tv => tv.2)

/-- All vertex ids assigned across a block list, in assignment order. -/
def allIds (blocks : List StationBlock) : List Nat :=
  blocks.flatMap blockIds

/-- The time-vertex ids of one station. -/
def timeIds (b : StationBlock) : List Nat :=
  b.times.map (fun tv => tv.2)

/-- The time-vertex ids of every station. -/
def timeIdsAll (blocks : List StationBlock) : List Nat :=
  blocks.flatMap timeIds

/-- `stations.get(name)` / `stations[name]` on the embedded station table. -/
def findStation (stations : List StationBlock) (name : String) : Option StationBlock :=
  stations.find? (fun b => b.name = name)

/-- `station.times[&time]`: the vertex id recorded for a clock time. -/
def findTime (b : StationBlock) (t : Nat) : Option Nat :=
  (b.times.find? (fun tv => tv.1 = t)).map (fun tv => tv.2)

/-- The body of the pair loop in `connect_between_stations` for one consecutive
passing pair `(a, b)`: skip when `b.arrival <= a.departure` under the `Option`
ordering; otherwise unwrap the times, resolve the two time vertices, and insert
the travel edge weighted by the elapsed seconds.  `none` models a panic (an
`unwrap` of `None` or a failed index). -/
def connectPair (stations : List StationBlock) (stops : List String) (g : List Edge)
    (a b : Passing) : Option (List Edge) :=
  if optLe b.arrival a.departure then some g
  else
    match a.departure with
    | none => none
    | some dep =>
      match stops[a.stop_point]? with
      | none => none
      | some start_name =>
        match findStation stations start_name with
        | none => none
        | some start_station =>
          match findTime start_station dep with
          | none => none
          | some start_id =>
            match b.arrival with
            | none => none
            | some arr =>
              match stops[b.stop_point]? with
              | none => none
              | some end_name =>
                match findStation stations end_name with
                | none => none
                | some end_station =>
                  match findTime end_station arr with
                  | none => none
                  | some end_id =>
                    some (addEdge g start_id end_id ((arr : Int) - (dep : Int)))

/-- The consecutive pairs `(passings[i], passings[i+1])` of a list. -/
def consecPairs {α : Type} (l : List α) : List (α × α) :=
  l.zip l.tail

/-- Fold `connectPair` over a pair list, propagating a panic. -/
def connectPairs (stations : List StationBlock) (stops : List String) :
    List Edge → List (Passing × Passing) → Option (List Edge)
  | g, [] => some g
  | g, (a, b) :: rest =>
    match connectPair stations stops g a b with
    | none => none
    | some g2 => connectPairs stations stops g2 rest

/-- The inner loop of `connect_between_stations` for one journey.  The loop bound
`journey.passings.len() - 1` underflows on an unsigned zero length, so a journey
with no passings panics (`none`); otherwise the loop visits exactly the
consecutive passing pairs. -/
def connectJourney (stations : List StationBlock) (stops : List String) (g : List Edge)
    (j : Journey) : Option (List Edge) :=
  match j.passings with
  | [] => none
  | _ :: _ => connectPairs stations stops g (consecPairs j.passings)

/-- Fold `connectJourney` over a journey list, propagating a panic. -/
def connectJourneys (stations : List StationBlock) (stops : List String) :
    List Edge → List Journey → Option (List Edge)
  | g, [] => some g
  | g, j :: rest =>
    match connectJourney stations stops g j with
    | none => none
    | some g2 => connectJourneys stations stops g2 rest

/-- `connect_between_stations` from `connection_graph.rs`: the travel edges of
every journey valid on the date, added into `g`. -/
def connect_between_stations (g : List Edge) (stations : List StationBlock)
    (mc : MultiConnection) (date : Int) : Option (List Edge) :=
  connectJourneys stations mc.stops g (mc.iter_valid_journeys date)

/-- The tail of the in-station loop of `connect_within_stations`: starting from
the previously visited `(time, id)` pair, each later pair adds the waiting edge
from the previous time vertex (weighted by the time delta), the zero-weight edge
into `Final`, and the zero-weight edge out of `Init`. -/
def withinChain (b : StationBlock) : Nat × Nat → List (Nat × Nat) → List Edge
  | _, [] => []
  | last, tv :: rest =>
    (last.2, tv.2, (tv.1 : Int) - (last.1 : Int)) :: (tv.2, b.fin, 0) :: (b.init, tv.2, 0) ::
      withinChain b tv rest

/-- The in-station edges of one station, in the order `connect_within_stations`
adds them: for the first time vertex the `Final` and `Init` fan edges, then for
each later time vertex the waiting edge and its fan edges.  A station with no
recorded times adds nothing. -/
def withinStationEdges (b : StationBlock) : List Edge :=
  match b.times with
  | [] => []
  | tv :: rest => (tv.2, b.fin, 0) :: (b.init, tv.2, 0) :: withinChain b tv rest

/-- `connect_within_stations` from `connection_graph.rs`: the in-station edges of
every station, added into `g`. -/
def connect_within_stations (g : List Edge) (stations : List StationBlock) : List Edge :=
  stations.foldl (fun acc b => addEdges acc (withinStationEdges b)) g

/-- `connection_graph.rs`: the built graph — edge list, station table and the
block-start reverse index. -/
structure ConnectionGraph where
  graph : List Edge
  stations : List StationBlock
  stations_by_ids : List (Nat × String)
deriving DecidableEq

/-- `connection_graph.rs`: the classification returned by `stop_by_id`. -/
inductive StopKind where
  | Initial : StopKind
  | Terminal : StopKind
  | At : Nat → StopKind
deriving DecidableEq, Repr

/-- `connection_graph.rs`: a resolved stop — station name plus classification. -/
structure Stop where
  name : String
  detail : StopKind
deriving DecidableEq, Repr

/-- `ConnectionGraph::new`: number the stations, add the travel edges, then the
in-station edges.  `none` models a panic during the travel-edge phase. -/
def ConnectionGraph.new (mc : MultiConnection) (date : Int) : Option ConnectionGraph :=
  let blocks := (populate_station_info_and_count_verts mc date).1
  match connect_between_stations [] blocks mc date with
  | none => none
  | some g1 =>
    some { graph := connect_within_stations g1 blocks,
           stations := blocks,
           stations_by_ids := byIds blocks }

/-- `BTreeMap::range((Unbounded, Included(id))).next_back()`: the entry with the
greatest key `≤ id`.  On the ascending-key list this is the last such entry. -/
def lookupLE (l : List (Nat × String)) (id : Nat) : Option (Nat × String) :=
  l.foldl (fun acc p => if p.1 ≤ id then some p else acc) none

/-- `BTreeMap::range((Included(id), Unbounded)).next()`: the entry with the
smallest key `≥ id`.  On the ascending-key list this is the first such entry. -/
def lookupGE (l : List (Nat × String)) (id : Nat) : Option (Nat × String) :=
  l.find? (fun p => id ≤ p.1)

/-- `ConnectionGraph::terminal_by_id`: find the station with the greatest
block-start `≤ id` and return its name iff `id` is exactly its `Final` vertex. -/
def ConnectionGraph.terminal_by_id (G : ConnectionGraph) (id : Nat) : Option String :=
  match lookupLE G.stations_by_ids id with
  | none => none
  | some (_, name) =>
    match findStation G.stations name with
    | none => none
    | some station => if station.fin = id then some name else none

/-- `ConnectionGraph::stop_by_id`: find the station with the smallest block-start
`≥ id` and classify `id` against that station's `Init`, `Final` and time ids. -/
def ConnectionGraph.stop_by_id (G : ConnectionGraph) (id : Nat) : Option Stop :=
  match lookupGE G.stations_by_ids id with
  | none => none
  | some (_, name) =>
    match findStation G.stations name with
    | none => none
    | some station =>
      if station.init = id then some { name := name, detail := StopKind.Initial }
      else if station.fin = id then some { name := name, detail := StopKind.Terminal }
      else
        match station.times.find? (fun tv => tv.2 = id) with
        | some tv => some { name := name, detail := StopKind.At tv.1 }
        | none => none

/-- A directed walk through an edge list, with its total weight: the
graph-theoretic notion whose minimal weight is what Dijkstra computes over
non-negative edge weights. -/
inductive Walk (E : List Edge) : Nat → Nat → Int → Prop
  | nil (u : Nat) : Walk E u u 0
  | cons {u v x : Nat} {w c : Int} :
      (u, v, w) ∈ E → Walk E v x c → Walk E u x (w + c)

/-- One relaxation of one edge over a tentative-distance table (indexed by
vertex id, `none` = unreached). -/
def relaxEdge (d : List (Option Int)) (e : Edge) : List (Option Int) :=
  match d.getD e.1 none with
  | none => d
  | some c =>
    match d.getD e.2.1 none with
    | none => d.set e.2.1 (some (c + e.2.2))
    | some c2 => if c + e.2.2 < c2 then d.set e.2.1 (some (c + e.2.2)) else d

/-- One relaxation round over every edge. -/
def relaxAll (E : List Edge) (d : List (Option Int)) : List (Option Int) :=
  E.foldl relaxEdge d

/-- `n` relaxation rounds. -/
def relaxIter (E : List Edge) : Nat → List (Option Int) → List (Option Int)
  | 0, d => d
  | n + 1, d => relaxIter E n (relaxAll E d)

/-- Bellman–Ford distances after `n` rounds from `source` over `n` vertices;
with `n` at least the vertex count and non-negative weights this is the
single-source shortest-path distance table that Dijkstra computes. -/
def bfDist (E : List Edge) (n source : Nat) : List (Option Int) :=
  relaxIter E n ((List.range n).map (fun i => if i = source then some 0 else none))

/-- A one-day operating period valid exactly on its first day. -/
def cexPeriod : OperatingPeriod :=
  { from_date := 0, to_date := 0, day_bits := [0] }

/-- Trip 1 of the earliest-arrival example: departs station `A` at second 200,
arrives at station `C` at second 300. -/
def cexJourney1 : Journey :=
  { passings := [{ stop_point := 0, arrival := none, departure := some 200 },
                 { stop_point := 1, arrival := some 300, departure := none }],
    valid_from := 0, valid_to := 0, days := [0] }

/-- Trip 2 of the earliest-arrival example: departs station `A` at second 100,
arrives at station `C` at second 250. -/
def cexJourney2 : Journey :=
  { passings := [{ stop_point := 0, arrival := none, departure := some 100 },
                 { stop_point := 1, arrival := some 250, departure := none }],
    valid_from := 0, valid_to := 0, days := [0] }

/-- The sub-connection shared by the example feeds: one operating period, one
day type, the two direct trips. -/
def cexSub : SubMultiConnection :=
  { operating_periods := [cexPeriod],
    day_types := [some 0],
    journeys := [cexJourney1, cexJourney2] }

/-- The earliest-arrival example feed: two stations, two direct trips. -/
def cex1 : MultiConnection :=
  { stops := ["A", "C"], connections := [cexSub] }

/-- The graph built for the earliest-arrival example on day 0. -/
def cexG : ConnectionGraph :=
  (ConnectionGraph.new cex1 0).getD { graph := [], stations := [], stations_by_ids := [] }

/-- A feasible potential for the example graph: every edge weight dominates the
potential difference of its endpoints, so every walk weight dominates the
potential difference of its endpoints. -/
def cexPot (v : Nat) : Int :=
  ([0, 0, 0, 0, 150, 100, 150, 100] : List Int).getD v 0

/-- A feed whose single valid journey has a passing pair with the departure of
the first passing missing while the arrival of the second is present. -/
def cex2 : MultiConnection :=
  { stops := ["A", "C"],
    connections := [{ operating_periods := [cexPeriod],
                      day_types := [some 0],
                      journeys := [{ passings :=
                                       [{ stop_point := 0, arrival := some 100, departure := none },
                                        { stop_point := 1, arrival := some 200, departure := none }],
                                     valid_from := 0, valid_to := 0, days := [0] }] }] }

/-- A feed whose single valid journey has an empty passing list. -/
def cex3 : MultiConnection :=
  { stops := ["A"],
    connections := [{ operating_periods := [cexPeriod],
                      day_types := [some 0],
                      journeys := [{ passings := [], valid_from := 0, valid_to := 0,
                                     days := [0] }] }] }

/-- The earliest-arrival example feed extended with a station `D` that no valid
journey ever passes. -/
def cex9 : MultiConnection :=
  { stops := ["A", "C", "D"], connections := [cexSub] }

/-- The graph built for the extended example on day 0. -/
def cexG9 : ConnectionGraph :=
  (ConnectionGraph.new cex9 0).getD { graph := [], stations := [], stations_by_ids := [] }

/-- The concrete operating period of the bit-set indexing example: 2024-01-01 to
2024-01-03 (as epoch seconds) with day bits 0 and 2 set. -/
def cexPeriod7 : OperatingPeriod :=
  { from_date := 1704067200, to_date := 1704240000, day_bits := [0, 2] }

/-- The waiting edges of one station as §8 of the specification describes them: a
chain linking consecutive recorded times, each weighted by the time delta. -/
def waitingEdges (b : StationBlock) : List Edge :=
  (consecPairs b.times).map (fun pq => (pq.1.2, pq.2.2, (pq.2.1 : Int) - (pq.1.1 : Int)))

/-- C7: `OperatingPeriod::is_valid` holds exactly when the date lies in
`[from_date, to_date]` and bit `(date - from_date).num_days()` is set in the day
bit set; concretely, the period 2024-01-01 … 2024-01-03 with bits {0, 2} is valid
on 2024-01-01 and 2024-01-03 and invalid on 2024-01-02 and 2024-01-04 (dates as
epoch seconds). -/
theorem operatingPeriod_is_valid_iff :
    (∀ (p : OperatingPeriod) (date : Int),
      p.is_valid date = true ↔
        p.from_date ≤ date ∧ date ≤ p.to_date ∧
          ((date - p.from_date) / 86400).toNat ∈ p.day_bits) ∧
    cexPeriod7.is_valid 1704067200 = true ∧
    cexPeriod7.is_valid 1704240000 = true ∧
    cexPeriod7.is_valid 1704153600 = false ∧
    cexPeriod7.is_valid 1704326400 = false := by
  refine ⟨?_, by decide, by decide, by decide, by decide⟩
  intro p date
  unfold OperatingPeriod.is_valid
  by_cases h : (p.from_date > date || date > p.to_date) = true
  · rw [if_pos h]
    simp only [Bool.or_eq_true, decide_eq_true_eq] at h
    constructor
    · intro hf; exact absurd hf (by simp)
    · rintro ⟨h1, h2, -⟩; omega
  · rw [if_neg h]
    simp only [Bool.or_eq_true, decide_eq_true_eq, not_or, not_lt] at h
    rw [List.elem_iff]
    simp [h.1, h.2]

/-- C6: on a well-formed feed (every referenced day-type and period index in
range, as the source assumes), `Journey::is_valid` holds exactly when the date is
inside the validity window and some referenced day type — references without an
associated operating period being skipped — has an operating period valid on the
date.  The loop is the short-circuit OR across the references in trip order
(`List.any`), and a trip none of whose references validates never runs. -/
theorem journey_is_valid_or_semantics (j : Journey) (parent : SubMultiConnection) (date : Int)
    (_hdays : ∀ i ∈ j.days, i < parent.day_types.length)
    (_hperiods : ∀ i ∈ j.days, ∀ pidx, parent.day_types.getD i none = some pidx →
      pidx < parent.operating_periods.length) :
    (j.is_valid parent date = true ↔
      (j.valid_from ≤ date ∧ date ≤ j.valid_to) ∧
        ∃ i ∈ j.days, dayTypeValidOn parent i date = true) ∧
    ((∀ i ∈ j.days, dayTypeValidOn parent i date = false) →
      j.is_valid parent date = false) := by
  constructor
  · unfold Journey.is_valid
    by_cases h : (j.valid_from > date || date > j.valid_to) = true
    · rw [if_pos h]
      simp only [Bool.or_eq_true, decide_eq_true_eq] at h
      constructor
      · intro hf; exact absurd hf (by simp)
      · rintro ⟨⟨h1, h2⟩, -⟩; omega
    · rw [if_neg h]
      simp only [Bool.or_eq_true, decide_eq_true_eq, not_or, not_lt] at h
      rw [List.any_eq_true]
      simp [h.1, h.2]
  · intro hall
    unfold Journey.is_valid
    by_cases h : (j.valid_from > date || date > j.valid_to) = true
    · rw [if_pos h]
    · rw [if_neg h]
      rw [List.any_eq_false]
      intro x hx
      simp [hall x hx]

/-- Witness for C6: the example journey is valid on day 0, obtained through the
theorem with its hypotheses discharged at the concrete feed. -/
theorem journey_is_valid_or_semantics_witness :
    cexJourney1.is_valid cexSub 0 = true :=
  ((journey_is_valid_or_semantics cexJourney1 cexSub 0 (by decide) (by decide)).1).mpr
    (by decide)

theorem mem_insertSorted {t x : Nat} {l : List Nat} :
    x ∈ insertSorted t l ↔ x = t ∨ x ∈ l := by
  induction l with
  | nil => simp [insertSorted]
  | cons y ys ih =>
    unfold insertSorted
    by_cases h1 : t < y
    · simp [if_pos h1]
    · by_cases h2 : t = y
      · subst h2; simp [if_neg h1]
      · rw [if_neg h1, if_neg h2]
        simp only [List.mem_cons, ih]
        tauto

theorem pairwise_insertSorted {t : Nat} {l : List Nat} (h : List.Pairwise (· < ·) l) :
    List.Pairwise (· < ·) (insertSorted t l) := by
  induction l with
  | nil => simp [insertSorted]
  | cons y ys ih =>
    rw [List.pairwise_cons] at h
    obtain ⟨hy, hys⟩ := h
    unfold insertSorted
    by_cases h1 : t < y
    · rw [if_pos h1]
      refine List.Pairwise.cons ?_ (List.Pairwise.cons hy hys)
      intro a ha
      rcases List.mem_cons.mp ha with rfl | ha
      · exact h1
      · exact h1.trans (hy a ha)
    · by_cases h2 : t = y
      · rw [if_neg h1, if_pos h2]; exact List.Pairwise.cons hy hys
      · rw [if_neg h1, if_neg h2]
        refine List.Pairwise.cons ?_ (ih hys)
        intro a ha
        rcases mem_insertSorted.mp ha with rfl | ha
        · omega
        · exact hy a ha

theorem pairwise_foldl_insertSorted (l acc : List Nat) (h : List.Pairwise (· < ·) acc) :
    List.Pairwise (· < ·) (l.foldl (fun a t => insertSorted t a) acc) := by
  induction l generalizing acc with
  | nil => simpa using h
  | cons t ts ih => exact ih _ (pairwise_insertSorted h)

theorem mem_foldl_insertSorted {x : Nat} (l acc : List Nat) :
    x ∈ l.foldl (fun a t => insertSorted t a) acc ↔ x ∈ acc ∨ x ∈ l := by
  induction l generalizing acc with
  | nil => simp
  | cons t ts ih =>
    rw [List.foldl_cons, ih, mem_insertSorted]
    simp only [List.mem_cons]
    tauto

/-- The time set recorded for a station is strictly ascending. -/
theorem collectStationTimes_sorted (mc : MultiConnection) (date : Int) (name : String) :
    List.Pairwise (· < ·) (collectStationTimes mc date name) :=
  pairwise_foldl_insertSorted _ _ (by simp)

theorem mem_ite_nil {α : Type} {c : Prop} [Decidable c] {l : List α} {x : α} :
    x ∈ (if c then l else []) ↔ c ∧ x ∈ l := by
  split
  · next h => simp [h]
  · next h => simp [h]

/-- Membership in a station's recorded time set: some valid journey has a
passing at that station carrying the time. -/
theorem mem_collectStationTimes {mc : MultiConnection} {date : Int} {name : String} {x : Nat} :
    x ∈ collectStationTimes mc date name ↔
      ∃ j ∈ mc.iter_valid_journeys date, ∃ p ∈ j.passings,
        mc.stops.getD p.stop_point "" = name ∧ x ∈ passingTimes p := by
  unfold collectStationTimes
  rw [mem_foldl_insertSorted]
  simp only [List.not_mem_nil, false_or, List.mem_flatMap, mem_ite_nil]

theorem assignTimes_map_fst (ts : List Nat) (base : Nat) :
    (assignTimes ts base).map (fun tv => tv.1) = ts := by
  induction ts generalizing base with
  | nil => simp [assignTimes]
  | cons t ts ih => simp [assignTimes, ih]

theorem assignTimes_map_snd (ts : List Nat) (base : Nat) :
    (assignTimes ts base).map (fun tv => tv.2) = List.range' base ts.length := by
  induction ts generalizing base with
  | nil => simp [assignTimes]
  | cons t ts ih => simp [assignTimes, ih, List.range'_succ]

theorem assignTimes_length (ts : List Nat) (base : Nat) :
    (assignTimes ts base).length = ts.length := by
  induction ts generalizing base with
  | nil => simp [assignTimes]
  | cons t ts ih => simp [assignTimes, ih]

theorem mem_assignTimes {ts : List Nat} {base : Nat} {tv : Nat × Nat}
    (h : tv ∈ assignTimes ts base) :
    tv.1 ∈ ts ∧ base ≤ tv.2 ∧ tv.2 < base + ts.length := by
  induction ts generalizing base with
  | nil => simp [assignTimes] at h
  | cons t ts ih =>
    simp only [assignTimes, List.mem_cons] at h
    rcases h with rfl | h
    · simp
    · have := ih h
      refine ⟨List.mem_cons_of_mem _ this.1, by omega, by simp; omega⟩

theorem exists_assignTimes_of_mem :
    ∀ {ts : List Nat} {t : Nat} (base : Nat), t ∈ ts → ∃ v, (t, v) ∈ assignTimes ts base := by
  intro ts
  induction ts with
  | nil => intro t base h; simp at h
  | cons x xs ih =>
    intro t base h
    rcases List.mem_cons.mp h with rfl | h
    · exact ⟨base, List.mem_cons_self _ _⟩
    · obtain ⟨v, hv⟩ := ih (base + 1) h
      exact ⟨v, List.mem_cons_of_mem _ hv⟩

theorem numberStations_names (f : String → List Nat) :
    ∀ (ns : List String) (base : Nat),
      ((numberStations f ns base).1).map (fun b => b.name) = ns := by
  intro ns
  induction ns with
  | nil => intro base; simp [numberStations]
  | cons n ns ih => intro base; simp [numberStations, ih]

theorem numberStations_shape (f : String → List Nat) :
    ∀ (ns : List String) (base : Nat) (b : StationBlock), b ∈ (numberStations f ns base).1 →
      b.fin = b.init + 1 ∧ b.times = assignTimes (f b.name) (b.init + 2) ∧ base ≤ b.init := by
  intro ns
  induction ns with
  | nil => intro base b h; simp [numberStations] at h
  | cons n ns ih =>
    intro base b h
    simp only [numberStations, List.mem_cons] at h
    rcases h with rfl | h
    · exact ⟨rfl, rfl, Nat.le_refl _⟩
    · obtain ⟨h1, h2, h3⟩ := ih (base + 2 + (f n).length) b h
      exact ⟨h1, h2, by omega⟩

theorem numberStations_le (f : String → List Nat) :
    ∀ (ns : List String) (base : Nat), base ≤ (numberStations f ns base).2 := by
  intro ns
  induction ns with
  | nil => intro base; simp [numberStations]
  | cons n ns ih =>
    intro base
    have := ih (base + 2 + (f n).length)
    simp only [numberStations]
    omega

theorem numberStations_allIds (f : String → List Nat) :
    ∀ (ns : List String) (base : Nat),
      allIds (numberStations f ns base).1 =
        List.range' base ((numberStations f ns base).2 - base) := by
  intro ns
  induction ns with
  | nil => intro base; simp [numberStations, allIds]
  | cons n ns ih =>
    intro base
    simp only [numberStations, allIds, List.flatMap_cons]
    have h1 : blockIds ⟨n, base, base + 1, assignTimes (f n) (base + 2)⟩ =
        List.range' base (2 + (f n).length) := by
      simp only [blockIds, assignTimes_map_snd]
      show base :: (base + 1) :: List.range' (base + 2) (f n).length = _
      rw [show 2 + (f n).length = (f n).length + 1 + 1 by omega]
      rw [List.range'_succ]
      congr 1
    rw [h1]
    show _ ++ allIds (numberStations f ns (base + 2 + (f n).length)).1 = _
    rw [show base + 2 + (f n).length = base + (2 + (f n).length) by omega]
    rw [ih]
    rw [List.range'_append_1]
    have hle := numberStations_le f ns (base + (2 + (f n).length))
    congr 1
    omega

theorem numberStations_chain (f : String → List Nat) :
    ∀ (ns : List String) (base : Nat),
      List.Chain' (fun b b2 => b2.init = b.init + 2 + b.times.length)
        (numberStations f ns base).1 := by
  intro ns
  induction ns with
  | nil => intro base; simp [numberStations]
  | cons n ns ih =>
    intro base
    cases ns with
    | nil => simp [numberStations]
    | cons m ms =>
      have ih2 := ih (base + 2 + (f n).length)
      simp only [numberStations] at ih2 ⊢
      refine List.Chain'.cons ?_ ih2
      simp [assignTimes_length]

theorem numberStations_chain_ids (f : String → List Nat) :
    ∀ (ns : List String) (base : Nat),
      List.Chain' (fun b b2 => ∀ tv ∈ b.times, b.fin < tv.2 ∧ tv.2 < b2.init)
        (numberStations f ns base).1 := by
  intro ns
  induction ns with
  | nil => intro base; simp [numberStations]
  | cons n ns ih =>
    intro base
    cases ns with
    | nil => simp [numberStations]
    | cons m ms =>
      have ih2 := ih (base + 2 + (f n).length)
      simp only [numberStations] at ih2 ⊢
      refine List.Chain'.cons ?_ ih2
      intro tv htv
      have := mem_assignTimes htv
      simp only
      omega

theorem numberStations_nodup_allIds (f : String → List Nat) (ns : List String) (base : Nat) :
    (allIds (numberStations f ns base).1).Nodup := by
  rw [numberStations_allIds]
  exact List.nodup_range' _ _

theorem mem_dedupFirstAux : ∀ (l seen : List String) (x : String),
    x ∈ dedupFirstAux l seen ↔ x ∈ l ∧ x ∉ seen := by
  intro l
  induction l with
  | nil => intro seen x; simp [dedupFirstAux]
  | cons y ys ih =>
    intro seen x
    unfold dedupFirstAux
    by_cases hy : y ∈ seen
    · rw [if_pos hy, ih]
      simp only [List.mem_cons]
      constructor
      · rintro ⟨h1, h2⟩; exact ⟨Or.inr h1, h2⟩
      · rintro ⟨h1 | h1, h2⟩
        · subst h1; exact absurd hy h2
        · exact ⟨h1, h2⟩
    · rw [if_neg hy]
      simp only [List.mem_cons, ih, List.mem_cons]
      constructor
      · rintro (rfl | ⟨h1, h2⟩)
        · exact ⟨Or.inl rfl, hy⟩
        · rw [not_or] at h2
          exact ⟨Or.inr h1, h2.2⟩
      · rintro ⟨h1 | h1, h2⟩
        · exact Or.inl h1
        · by_cases hxy : x = y
          · exact Or.inl hxy
          · exact Or.inr ⟨h1, by rw [not_or]; exact ⟨hxy, h2⟩⟩

theorem nodup_dedupFirstAux : ∀ (l seen : List String), (dedupFirstAux l seen).Nodup := by
  intro l
  induction l with
  | nil => intro seen; simp [dedupFirstAux]
  | cons y ys ih =>
    intro seen
    unfold dedupFirstAux
    by_cases hy : y ∈ seen
    · rw [if_pos hy]; exact ih seen
    · rw [if_neg hy]
      rw [List.nodup_cons]
      refine ⟨fun hc => ?_, ih (y :: seen)⟩
      have := (mem_dedupFirstAux ys (y :: seen) y).mp hc
      exact this.2 (List.mem_cons_self _ _)

theorem stationOrder_nodup (mc : MultiConnection) : (stationOrder mc).Nodup :=
  nodup_dedupFirstAux _ _

theorem mem_stationOrder {mc : MultiConnection} {x : String} :
    x ∈ stationOrder mc ↔ x ∈ mc.stops := by
  unfold stationOrder
  rw [mem_dedupFirstAux]
  simp

/-- C4: for every station block produced by the numbering pass, the ids form a
contiguous ascending block — `fin = init + 1`, the time vertices carry the
station's ascending distinct time set and receive the consecutive ids
`init + 2, init + 3, …` in ascending time order, every time-vertex id lies
strictly between the station's `Final` id and the next station's `Init` id, and
the returned vertex count equals the total number of ids assigned (the assigned
ids are exactly `0, 1, …, count - 1` in order). -/
theorem vertex_id_layout (mc : MultiConnection) (date : Int) :
    (∀ b ∈ (populate_station_info_and_count_verts mc date).1,
      b.fin = b.init + 1 ∧
      b.times.map (fun tv => tv.1) = collectStationTimes mc date b.name ∧
      List.Pairwise (· < ·) (b.times.map (fun tv => tv.1)) ∧
      b.times.map (fun tv => tv.2) = List.range' (b.init + 2) b.times.length) ∧
    List.Chain' (fun b b2 => ∀ tv ∈ b.times, b.fin < tv.2 ∧ tv.2 < b2.init)
      (populate_station_info_and_count_verts mc date).1 ∧
    allIds (populate_station_info_and_count_verts mc date).1 =
      List.range' 0 (populate_station_info_and_count_verts mc date).2 := by
  unfold populate_station_info_and_count_verts
  refine ⟨?_, numberStations_chain_ids _ _ _, ?_⟩
  · intro b hb
    obtain ⟨h1, h2, _h3⟩ := numberStations_shape _ _ _ b hb
    refine ⟨h1, ?_, ?_, ?_⟩
    · rw [h2, assignTimes_map_fst]
    · rw [h2, assignTimes_map_fst]
      exact collectStationTimes_sorted mc date b.name
    · rw [h2, assignTimes_map_snd, assignTimes_length]
  · rw [numberStations_allIds, Nat.sub_zero]

/-- Witness for C4 at the extended example feed: the third station block (the
isolated station `D`) satisfies `fin = init + 1`, and the assigned ids are
exactly `0 … count - 1`. -/
theorem vertex_id_layout_witness :
    ((populate_station_info_and_count_verts cex9 0).1.getD 2 ⟨"", 0, 0, []⟩).fin =
      ((populate_station_info_and_count_verts cex9 0).1.getD 2 ⟨"", 0, 0, []⟩).init + 1 ∧
    allIds (populate_station_info_and_count_verts cex9 0).1 =
      List.range' 0 (populate_station_info_and_count_verts cex9 0).2 :=
  ⟨((vertex_id_layout cex9 0).1 _ (by decide)).1, (vertex_id_layout cex9 0).2.2⟩

theorem connectJourneys_none (stations : List StationBlock) (stops : List String) :
    ∀ (js : List Journey) (g : List Edge) (j : Journey),
      j ∈ js → j.passings = [] → connectJourneys stations stops g js = none := by
  intro js
  induction js with
  | nil => intro g j h; simp at h
  | cons j0 js ih =>
    intro g j h hp
    rcases List.mem_cons.mp h with rfl | h
    · have hj : connectJourney stations stops g j = none := by
        unfold connectJourney
        rw [hp]
      unfold connectJourneys
      rw [hj]
    · cases hc : connectJourney stations stops g j0 with
      | none => unfold connectJourneys; rw [hc]
      | some g2 =>
        unfold connectJourneys
        rw [hc]
        exact ih g2 j h hp

/-- C10: the pair-loop bound `journey.passings.len() - 1` underflows for a
journey with no passings, so graph construction is panic-free at that loop only
when every journey valid on the target date has a non-empty passing list: as
soon as some valid journey has zero passings, `ConnectionGraph::new` panics
(modelled as `none`) instead of producing a graph. -/
theorem graph_construction_panics_on_empty_passings (mc : MultiConnection) (date : Int)
    (j : Journey) (hj : j ∈ mc.iter_valid_journeys date) (hp : j.passings = []) :
    ConnectionGraph.new mc date = none := by
  have h := connectJourneys_none (populate_station_info_and_count_verts mc date).1 mc.stops
    (mc.iter_valid_journeys date) [] j hj hp
  simp only [ConnectionGraph.new, connect_between_stations]
  rw [h]

/-- Witness for C10: the feed whose single valid journey has an empty passing
list makes construction panic. -/
theorem graph_construction_panics_on_empty_passings_witness :
    ConnectionGraph.new cex3 0 = none :=
  graph_construction_panics_on_empty_passings cex3 0
    { passings := [], valid_from := 0, valid_to := 0, days := [0] } (by decide) rfl

theorem numberStations_pairwise_init (f : String → List Nat) (ns : List String) (base : Nat) :
    List.Pairwise (fun b b2 : StationBlock => b.init + 2 + b.times.length ≤ b2.init)
      (numberStations f ns base).1 := by
  induction ns generalizing base with
  | nil => simp [numberStations]
  | cons n ns ih =>
    simp only [numberStations]
    rw [List.pairwise_cons]
    refine ⟨?_, ih (base + 2 + (f n).length)⟩
    intro b hb
    have h := (numberStations_shape f ns (base + 2 + (f n).length) b hb).2.2
    simp only [assignTimes_length]
    omega

theorem findStation_of_mem {blocks : List StationBlock} {b : StationBlock}
    (hnd : (blocks.map (fun x => x.name)).Nodup) (hb : b ∈ blocks) :
    findStation blocks b.name = some b := by
  induction blocks with
  | nil => simp at hb
  | cons x xs ih =>
    rw [List.map_cons, List.nodup_cons] at hnd
    rcases List.mem_cons.mp hb with rfl | hb
    · unfold findStation
      rw [List.find?_cons_of_pos]
      simp
    · have hne : x.name ≠ b.name := by
        intro hc
        exact hnd.1 (hc ▸ List.mem_map_of_mem (fun y => y.name) hb)
      unfold findStation
      rw [List.find?_cons_of_neg]
      · exact ih hnd.2 hb
      · simp [hne]

theorem findStation_mem {blocks : List StationBlock} {name : String} {b : StationBlock}
    (h : findStation blocks name = some b) : b ∈ blocks ∧ b.name = name := by
  unfold findStation at h
  have hm := List.mem_of_find?_eq_some h
  have hp := List.find?_some h
  simp only [decide_eq_true_eq] at hp
  exact ⟨hm, hp⟩

theorem lookupLE_skip (id : Nat) :
    ∀ (l : List (Nat × String)) (acc : Option (Nat × String)),
      (∀ q ∈ l, id < q.1) →
      l.foldl (fun acc p => if p.1 ≤ id then some p else acc) acc = acc := by
  intro l
  induction l with
  | nil => intro acc h; simp
  | cons q qs ih =>
    intro acc h
    rw [List.foldl_cons]
    have hq := h q (List.mem_cons_self _ _)
    rw [if_neg (by omega)]
    exact ih acc (fun r hr => h r (List.mem_cons_of_mem _ hr))

theorem lookupLE_split (l1 l2 : List (Nat × String)) (p : Nat × String) (id : Nat)
    (hp : p.1 ≤ id) (h2 : ∀ q ∈ l2, id < q.1) :
    lookupLE (l1 ++ p :: l2) id = some p := by
  unfold lookupLE
  rw [List.foldl_append, List.foldl_cons, if_pos hp]
  exact lookupLE_skip id l2 (some p) h2

theorem lookupGE_none (id : Nat) :
    ∀ (l : List (Nat × String)), (∀ q ∈ l, q.1 < id) → lookupGE l id = none := by
  intro l
  induction l with
  | nil => intro h; rfl
  | cons q qs ih =>
    intro h
    unfold lookupGE
    rw [List.find?_cons_of_neg]
    · exact ih (fun r hr => h r (List.mem_cons_of_mem _ hr))
    · have := h q (List.mem_cons_self _ _)
      simp
      omega

theorem lookupGE_split (l1 l2 : List (Nat × String)) (p : Nat × String) (id : Nat)
    (h1 : ∀ q ∈ l1, q.1 < id) (hp : id ≤ p.1) :
    lookupGE (l1 ++ p :: l2) id = some p := by
  induction l1 with
  | nil =>
    unfold lookupGE
    rw [List.nil_append, List.find?_cons_of_pos]
    simp [hp]
  | cons q qs ih =>
    have hq := h1 q (List.mem_cons_self _ _)
    unfold lookupGE at ih ⊢
    rw [List.cons_append, List.find?_cons_of_neg]
    · exact ih (fun r hr => h1 r (List.mem_cons_of_mem _ hr))
    · simp
      omega

theorem new_inv {mc : MultiConnection} {date : Int} {G : ConnectionGraph}
    (h : ConnectionGraph.new mc date = some G) :
    G.stations = (populate_station_info_and_count_verts mc date).1 ∧
    G.stations_by_ids = byIds (populate_station_info_and_count_verts mc date).1 ∧
    ∃ g1,
      connect_between_stations [] (populate_station_info_and_count_verts mc date).1 mc date =
        some g1 ∧
      G.graph = connect_within_stations g1 (populate_station_info_and_count_verts mc date).1 := by
  simp only [ConnectionGraph.new] at h
  cases hc : connect_between_stations [] (populate_station_info_and_count_verts mc date).1 mc date with
  | none => rw [hc] at h; cases h
  | some g1 =>
    rw [hc] at h
    cases h
    exact ⟨rfl, rfl, g1, rfl, rfl⟩

theorem blocks_names_nodup (mc : MultiConnection) (date : Int) :
    (((populate_station_info_and_count_verts mc date).1).map (fun b => b.name)).Nodup := by
  unfold populate_station_info_and_count_verts
  rw [numberStations_names]
  exact stationOrder_nodup mc

/-- C5: on every built graph, `terminal_by_id` returns a station name exactly
when the queried id is that station's `Final` vertex; the candidate is located as
the station with the greatest block-start `≤ id` (see the definition of
`ConnectionGraph.terminal_by_id`) and the result is `none` in every other case. -/
theorem terminal_by_id_spec (mc : MultiConnection) (date : Int) (G : ConnectionGraph)
    (hG : ConnectionGraph.new mc date = some G) (id : Nat) (nm : String) :
    G.terminal_by_id id = some nm ↔ ∃ b ∈ G.stations, b.name = nm ∧ b.fin = id := by
  obtain ⟨hs, hids, -⟩ := new_inv hG
  constructor
  · intro h
    unfold ConnectionGraph.terminal_by_id at h
    cases hl : lookupLE G.stations_by_ids id with
    | none => rw [hl] at h; cases h
    | some kn =>
      obtain ⟨k, name⟩ := kn
      rw [hl] at h
      have h2 : (match findStation G.stations name with
          | none => (none : Option String)
          | some station => if station.fin = id then some name else none) = some nm := h
      cases hf : findStation G.stations name with
      | none => rw [hf] at h2; cases h2
      | some st =>
        rw [hf] at h2
        have h3 : (if st.fin = id then some name else none) = some nm := h2
        by_cases hfin : st.fin = id
        · rw [if_pos hfin] at h3
          obtain ⟨hmem, hname⟩ := findStation_mem hf
          cases h3
          exact ⟨st, hmem, hname, hfin⟩
        · rw [if_neg hfin] at h3
          cases h3
  · rintro ⟨b, hb, hnm, hfin⟩
    subst hnm
    rw [hs] at hb
    have hsh := numberStations_shape (collectStationTimes mc date) (stationOrder mc) 0 b hb
    obtain ⟨l1, l2, hsplit⟩ := List.append_of_mem hb
    have hpw := numberStations_pairwise_init (collectStationTimes mc date) (stationOrder mc) 0
    rw [show (populate_station_info_and_count_verts mc date).1
        = (numberStations (collectStationTimes mc date) (stationOrder mc) 0).1 from rfl] at hsplit
    rw [hsplit, List.pairwise_append] at hpw
    have hpb := hpw.2.1
    rw [List.pairwise_cons] at hpb
    have hby : G.stations_by_ids = byIds l1 ++ (b.init, b.name) :: byIds l2 := by
      rw [hids]
      show byIds (populate_station_info_and_count_verts mc date).1 = _
      rw [show (populate_station_info_and_count_verts mc date).1
          = (numberStations (collectStationTimes mc date) (stationOrder mc) 0).1 from rfl]
      rw [hsplit]
      simp [byIds]
    have hle : lookupLE G.stations_by_ids id = some (b.init, b.name) := by
      rw [hby]
      apply lookupLE_split
      · show b.init ≤ id
        omega
      · intro q hq
        simp only [byIds, List.mem_map] at hq
        obtain ⟨b2, hb2, rfl⟩ := hq
        have := hpb.1 b2 hb2
        simp only
        omega
    unfold ConnectionGraph.terminal_by_id
    rw [hle]
    have hfs : findStation G.stations b.name = some b :=
      findStation_of_mem (by rw [hs]; exact blocks_names_nodup mc date) (by rw [hs]; exact hb)
    show (match findStation G.stations b.name with
          | none => (none : Option String)
          | some station => if station.fin = id then some b.name else none) = some b.name
    rw [hfs]
    show (if b.fin = id then some b.name else none) = some b.name
    rw [if_pos hfin]

/-- Witness for C5: on the example graph, id 5 is resolved to station `C`, whose
`Final` vertex it is. -/
theorem terminal_by_id_spec_witness :
    cexG.terminal_by_id 5 = some "C" :=
  (terminal_by_id_spec cex1 0 cexG rfl 5 "C").mpr
    ⟨⟨"C", 4, 5, [(250, 6), (300, 7)]⟩, by decide, rfl, rfl⟩

theorem block_split (mc : MultiConnection) (date : Int) {b : StationBlock}
    (hb : b ∈ (populate_station_info_and_count_verts mc date).1) :
    ∃ l1 l2,
      (populate_station_info_and_count_verts mc date).1 = l1 ++ b :: l2 ∧
      (∀ a ∈ l1, a.init + 2 + a.times.length ≤ b.init) ∧
      ∀ b2 ∈ l2, b.init + 2 + b.times.length ≤ b2.init := by
  obtain ⟨l1, l2, hsplit⟩ := List.append_of_mem hb
  have hpw := numberStations_pairwise_init (collectStationTimes mc date) (stationOrder mc) 0
  have hsplit2 : (numberStations (collectStationTimes mc date) (stationOrder mc) 0).1 =
      l1 ++ b :: l2 := hsplit
  rw [hsplit2, List.pairwise_append] at hpw
  refine ⟨l1, l2, hsplit, ?_, ?_⟩
  · intro a ha
    exact hpw.2.2 a ha b (List.mem_cons_self _ _)
  · intro b2 hb2
    exact (List.pairwise_cons.mp hpw.2.1).1 b2 hb2

theorem stop_by_id_eval_none (G : ConnectionGraph) (id : Nat)
    (hl : lookupGE G.stations_by_ids id = none) : G.stop_by_id id = none := by
  unfold ConnectionGraph.stop_by_id
  rw [hl]

theorem stop_by_id_eval (G : ConnectionGraph) (id k : Nat) (name : String) (st : StationBlock)
    (hl : lookupGE G.stations_by_ids id = some (k, name))
    (hf : findStation G.stations name = some st) :
    G.stop_by_id id =
      (if st.init = id then some { name := name, detail := StopKind.Initial }
       else if st.fin = id then some { name := name, detail := StopKind.Terminal }
       else
         match st.times.find? (fun tv => tv.2 = id) with
         | some tv => some { name := name, detail := StopKind.At tv.1 }
         | none => none) := by
  unfold ConnectionGraph.stop_by_id
  rw [hl]
  show (match findStation G.stations name with
        | none => (none : Option Stop)
        | some station =>
          if station.init = id then some { name := name, detail := StopKind.Initial }
          else if station.fin = id then some { name := name, detail := StopKind.Terminal }
          else
            match station.times.find? (fun (tv : Nat × Nat) => tv.2 = id) with
            | some tv => some { name := name, detail := StopKind.At tv.1 }
            | none => none) = _
  rw [hf]

theorem stop_by_id_none_between {mc : MultiConnection} {date : Int} {G : ConnectionGraph}
    (hG : ConnectionGraph.new mc date = some G) {b : StationBlock}
    (hb : b ∈ G.stations) (id : Nat)
    (hgt : b.init < id) (hlt : id < b.init + 2 + b.times.length) :
    G.stop_by_id id = none := by
  obtain ⟨hs, hids, -⟩ := new_inv hG
  rw [hs] at hb
  obtain ⟨l1, l2, hsplit, hl1, hl2⟩ := block_split mc date hb
  have hby : G.stations_by_ids = byIds l1 ++ (b.init, b.name) :: byIds l2 := by
    rw [hids, hsplit]
    simp [byIds]
  cases l2 with
  | nil =>
    apply stop_by_id_eval_none
    apply lookupGE_none
    intro q hq
    rw [hby] at hq
    rcases List.mem_append.mp hq with hq | hq
    · simp only [byIds, List.mem_map] at hq
      obtain ⟨a, ha, rfl⟩ := hq
      have := hl1 a ha
      simp only
      omega
    · rcases List.mem_cons.mp hq with rfl | hq
      · exact hgt
      · simp [byIds] at hq
  | cons b2 l2' =>
    have hb2le := hl2 b2 (List.mem_cons_self _ _)
    have hb2mem : b2 ∈ (populate_station_info_and_count_verts mc date).1 := by
      rw [hsplit]
      exact List.mem_append_right _ (List.mem_cons_of_mem _ (List.mem_cons_self _ _))
    have hsh2 := numberStations_shape (collectStationTimes mc date) (stationOrder mc) 0 b2 hb2mem
    have hby2 : G.stations_by_ids =
        (byIds l1 ++ [(b.init, b.name)]) ++ (b2.init, b2.name) :: byIds l2' := by
      rw [hby]
      simp [byIds]
    have hl : lookupGE G.stations_by_ids id = some (b2.init, b2.name) := by
      rw [hby2]
      apply lookupGE_split
      · intro q hq
        rcases List.mem_append.mp hq with hq | hq
        · simp only [byIds, List.mem_map] at hq
          obtain ⟨a, ha, rfl⟩ := hq
          have := hl1 a ha
          simp only
          omega
        · rcases List.mem_cons.mp hq with rfl | hq
          · exact hgt
          · simp at hq
      · show id ≤ b2.init
        omega
    have hfs : findStation G.stations b2.name = some b2 := by
      apply findStation_of_mem
      · rw [hs]; exact blocks_names_nodup mc date
      · rw [hs]; exact hb2mem
    rw [stop_by_id_eval G id b2.init b2.name b2 hl hfs]
    rw [if_neg (by omega)]
    rw [if_neg (by omega)]
    have hnone : b2.times.find? (fun tv => tv.2 = id) = none := by
      rw [List.find?_eq_none]
      intro tv htv
      rw [hsh2.2.1] at htv
      have := mem_assignTimes htv
      simp only [decide_eq_true_eq]
      omega
    rw [hnone]

/-- C3 counterexample: in the example graph, id 1 is station `A`'s `Final`
vertex, yet `stop_by_id 1` returns no stop at all — the smallest-block-start
`≥ id` rule selects station `C` and every check against `C`'s ids fails.  The
claim that `stop_by_id` classifies every assigned id correctly is therefore
false. -/
theorem stop_by_id_counterexample :
    ("A", 1) ∈ cexG.stations.map (fun b => (b.name, b.fin)) ∧
    cexG.stop_by_id 1 = none :=
  ⟨by decide, by decide⟩

/-- C3 amended: `stop_by_id` resolves correctly exactly the block-start ids —
for every station it returns the station's name with classification `Initial`
at the station's `Init` id, and `none` at the station's `Final` id and at every
one of its time-vertex ids (the smallest-block-start `≥ id` rule selects the
following station for those ids, and every check against that station's ids
fails). -/
theorem stop_by_id_amended (mc : MultiConnection) (date : Int) (G : ConnectionGraph)
    (hG : ConnectionGraph.new mc date = some G) :
    ∀ b ∈ G.stations,
      G.stop_by_id b.init = some { name := b.name, detail := StopKind.Initial } ∧
      G.stop_by_id b.fin = none ∧
      ∀ tv ∈ b.times, G.stop_by_id tv.2 = none := by
  intro b hb
  obtain ⟨hs, hids, -⟩ := new_inv hG
  have hb2 : b ∈ (populate_station_info_and_count_verts mc date).1 := by
    rw [← hs]; exact hb
  have hsh := numberStations_shape (collectStationTimes mc date) (stationOrder mc) 0 b hb2
  have hfe := hsh.1
  have hlen : b.times.length = (collectStationTimes mc date b.name).length := by
    rw [hsh.2.1, assignTimes_length]
  obtain ⟨l1, l2, hsplit, hl1, hl2⟩ := block_split mc date hb2
  refine ⟨?_, ?_, ?_⟩
  · have hby : G.stations_by_ids = byIds l1 ++ (b.init, b.name) :: byIds l2 := by
      rw [hids, hsplit]
      simp [byIds]
    have hl : lookupGE G.stations_by_ids b.init = some (b.init, b.name) := by
      rw [hby]
      apply lookupGE_split
      · intro q hq
        simp only [byIds, List.mem_map] at hq
        obtain ⟨a, ha, rfl⟩ := hq
        have := hl1 a ha
        simp only
        omega
      · exact Nat.le_refl _
    have hfs : findStation G.stations b.name = some b :=
      findStation_of_mem (by rw [hs]; exact blocks_names_nodup mc date) hb
    rw [stop_by_id_eval G b.init b.init b.name b hl hfs]
    rw [if_pos rfl]
  · exact stop_by_id_none_between hG hb b.fin (by omega) (by omega)
  · intro tv htv
    have htv2 : tv ∈ assignTimes (collectStationTimes mc date b.name) (b.init + 2) := by
      rw [← hsh.2.1]; exact htv
    have hbnd := mem_assignTimes htv2
    exact stop_by_id_none_between hG hb tv.2 (by omega) (by omega)

/-- Witness for the amended C3 at the example graph: station `A`'s `Init` id 0
is classified `Initial`, and its `Final` id 1 yields `none`. -/
theorem stop_by_id_amended_witness :
    cexG.stop_by_id 0 = some { name := "A", detail := StopKind.Initial } ∧
    cexG.stop_by_id 1 = none := by
  have h := stop_by_id_amended cex1 0 cexG rfl ⟨"A", 0, 1, [(100, 2), (200, 3)]⟩ (by decide)
  exact ⟨h.1, h.2.1⟩

theorem mem_addEdge_self (g : List Edge) (a b : Nat) (w : Int) :
    (a, b, w) ∈ addEdge g a b w := by
  unfold addEdge
  by_cases h : (g.any (fun e => e.1 = a && e.2.1 = b)) = true
  · rw [if_pos h]
    rw [List.any_eq_true] at h
    obtain ⟨e, he, hpe⟩ := h
    simp only [Bool.and_eq_true, decide_eq_true_eq] at hpe
    exact List.mem_map.mpr ⟨e, he, by rw [if_pos hpe]⟩
  · rw [if_neg h]
    exact List.mem_append_right _ (List.mem_cons_self _ _)

theorem mem_addEdge_elim {g : List Edge} {a b : Nat} {w : Int} {e : Edge}
    (h : e ∈ addEdge g a b w) : e ∈ g ∨ e = (a, b, w) := by
  unfold addEdge at h
  by_cases hc : (g.any (fun e => e.1 = a && e.2.1 = b)) = true
  · rw [if_pos hc] at h
    obtain ⟨e2, he2, heq⟩ := List.mem_map.mp h
    by_cases hp : e2.1 = a ∧ e2.2.1 = b
    · rw [if_pos hp] at heq; exact Or.inr heq.symm
    · rw [if_neg hp] at heq; exact Or.inl (heq ▸ he2)
  · rw [if_neg hc] at h
    rcases List.mem_append.mp h with h | h
    · exact Or.inl h
    · rcases List.mem_cons.mp h with h | h
      · exact Or.inr h
      · simp at h

theorem mem_addEdge_other {g : List Edge} {a b : Nat} {w : Int} {e : Edge}
    (hk : ¬(e.1 = a ∧ e.2.1 = b)) : e ∈ addEdge g a b w ↔ e ∈ g := by
  unfold addEdge
  by_cases hc : (g.any (fun e => e.1 = a && e.2.1 = b)) = true
  · rw [if_pos hc]
    constructor
    · intro h
      obtain ⟨e2, he2, heq⟩ := List.mem_map.mp h
      by_cases hp : e2.1 = a ∧ e2.2.1 = b
      · rw [if_pos hp] at heq
        exact absurd (by rw [← heq]; exact ⟨rfl, rfl⟩) hk
      · rw [if_neg hp] at heq; exact heq ▸ he2
    · intro h
      have : (if e.1 = a ∧ e.2.1 = b then ((a, b, w) : Edge) else e) = e := if_neg hk
      rw [← this]
      exact List.mem_map_of_mem _ h
  · rw [if_neg hc]
    constructor
    · intro h
      rcases List.mem_append.mp h with h | h
      · exact h
      · rcases List.mem_cons.mp h with rfl | h
        · exact absurd ⟨rfl, rfl⟩ hk
        · simp at h
    · exact fun h => List.mem_append_left _ h

theorem edgeKeys_addEdge_nodup {g : List Edge} (hnd : (edgeKeys g).Nodup) (a b : Nat) (w : Int) :
    (edgeKeys (addEdge g a b w)).Nodup := by
  unfold addEdge
  by_cases hc : (g.any (fun e => e.1 = a && e.2.1 = b)) = true
  · rw [if_pos hc]
    have : edgeKeys (g.map (fun e => if e.1 = a ∧ e.2.1 = b then (a, b, w) else e)) =
        edgeKeys g := by
      unfold edgeKeys
      rw [List.map_map]
      apply List.map_congr_left
      intro e _
      by_cases hp : e.1 = a ∧ e.2.1 = b
      · simp only [Function.comp_apply, if_pos hp]
        exact Prod.ext hp.1.symm hp.2.symm
      · simp only [Function.comp_apply, if_neg hp]
    rw [this]
    exact hnd
  · rw [if_neg hc]
    unfold edgeKeys
    rw [List.map_append]
    rw [List.nodup_append]
    refine ⟨hnd, by simp, ?_⟩
    intro k hk
    simp only [List.map_cons, List.map_nil, List.mem_singleton]
    intro hkab
    rw [Bool.not_eq_true, List.any_eq_false] at hc
    obtain ⟨e, he, hke⟩ := List.mem_map.mp hk
    have := hc e he
    simp only [Bool.and_eq_true, decide_eq_true_eq, not_and] at this
    rw [hkab] at hke
    have h1 : e.1 = a := congrArg Prod.fst hke
    have h2 : e.2.1 = b := congrArg Prod.snd hke
    exact this h1 h2

theorem blocks_blockIds_nodup (mc : MultiConnection) (date : Int) :
    ∀ b ∈ (populate_station_info_and_count_verts mc date).1, (blockIds b).Nodup := by
  have h := numberStations_nodup_allIds (collectStationTimes mc date) (stationOrder mc) 0
  have h2 : (allIds (populate_station_info_and_count_verts mc date).1).Nodup := h
  unfold allIds at h2
  rw [show ((populate_station_info_and_count_verts mc date).1.flatMap blockIds) =
      ((populate_station_info_and_count_verts mc date).1.map blockIds).flatten from rfl] at h2
  intro b hb
  exact (List.nodup_flatten.mp h2).1 (blockIds b) (List.mem_map_of_mem _ hb)

theorem blocks_ids_disjoint (mc : MultiConnection) (date : Int) :
    ∀ b ∈ (populate_station_info_and_count_verts mc date).1,
    ∀ b2 ∈ (populate_station_info_and_count_verts mc date).1,
      b ≠ b2 → ∀ x ∈ blockIds b, x ∉ blockIds b2 := by
  have h := numberStations_nodup_allIds (collectStationTimes mc date) (stationOrder mc) 0
  have h2 : (allIds (populate_station_info_and_count_verts mc date).1).Nodup := h
  unfold allIds at h2
  rw [show ((populate_station_info_and_count_verts mc date).1.flatMap blockIds) =
      ((populate_station_info_and_count_verts mc date).1.map blockIds).flatten from rfl] at h2
  have hpw := (List.nodup_flatten.mp h2).2
  rw [List.pairwise_map] at hpw
  intro b hb b2 hb2 hne
  have hsym : Symmetric (fun b b2 : StationBlock => List.Disjoint (blockIds b) (blockIds b2)) :=
    fun x y hxy => List.Disjoint.symm hxy
  exact List.Pairwise.forall hsym hpw hb hb2 hne

/-- An id cannot be a time-vertex id of one station and the `Init` or `Final` id
of a station at the same time, and time ids determine their station (as a block
value) and their clock time. -/
theorem time_id_facts (mc : MultiConnection) (date : Int) :
    ∀ b ∈ (populate_station_info_and_count_verts mc date).1,
    ∀ tv ∈ b.times,
      (∀ b2 ∈ (populate_station_info_and_count_verts mc date).1,
        tv.2 ≠ b2.init ∧ tv.2 ≠ b2.fin) ∧
      (∀ b2 ∈ (populate_station_info_and_count_verts mc date).1,
        ∀ tv2 ∈ b2.times, tv2.2 = tv.2 → b2 = b ∧ tv2 = tv) := by
  intro b hb tv htv
  have hvmem : tv.2 ∈ blockIds b :=
    List.mem_cons_of_mem _ (List.mem_cons_of_mem _ (List.mem_map_of_mem _ htv))
  have hvtime : tv.2 ∈ b.times.map (fun tv => tv.2) := List.mem_map_of_mem _ htv
  constructor
  · intro b2 hb2
    by_cases hbb : b = b2
    · subst hbb
      have hnd := blocks_blockIds_nodup mc date b hb
      unfold blockIds at hnd
      rw [List.nodup_cons, List.nodup_cons] at hnd
      have hini : b.init ∉ b.times.map (fun tv => tv.2) := by
        intro hc
        exact hnd.1 (List.mem_cons_of_mem _ hc)
      have hfin : b.fin ∉ b.times.map (fun tv => tv.2) := hnd.2.1
      constructor
      · intro hc
        rw [hc] at hvtime
        exact hini hvtime
      · intro hc
        rw [hc] at hvtime
        exact hfin hvtime
    · have hdisj := blocks_ids_disjoint mc date b hb b2 hb2 hbb
      constructor
      · intro hc
        exact hdisj tv.2 hvmem (by rw [hc]; exact List.mem_cons_self _ _)
      · intro hc
        exact hdisj tv.2 hvmem
          (by rw [hc]; exact List.mem_cons_of_mem _ (List.mem_cons_self _ _))
  · intro b2 hb2 tv2 htv2 heq
    by_cases hbb : b2 = b
    · subst hbb
      have hsnd := (numberStations_shape (collectStationTimes mc date) (stationOrder mc) 0
        b2 hb2).2.1
      have hnd : (b2.times.map (fun tv => tv.2)).Nodup := by
        rw [hsnd, assignTimes_map_snd]
        exact List.nodup_range' _ _
      exact ⟨rfl, List.inj_on_of_nodup_map hnd htv2 htv heq⟩
    · exfalso
      have hdisj := blocks_ids_disjoint mc date b2 hb2 b hb hbb
      have hv2 : tv2.2 ∈ blockIds b2 :=
        List.mem_cons_of_mem _ (List.mem_cons_of_mem _ (List.mem_map_of_mem _ htv2))
      exact hdisj tv2.2 hv2 (by rw [heq]; exact hvmem)

theorem findTime_some {b : StationBlock} {t v : Nat} (h : findTime b t = some v) :
    (t, v) ∈ b.times := by
  unfold findTime at h
  cases hf : b.times.find? (fun tv => tv.1 = t) with
  | none => rw [hf] at h; cases h
  | some tv =>
    rw [hf] at h
    have hv : tv.2 = v := Option.some.inj h
    have hm := List.mem_of_find?_eq_some hf
    have hp := List.find?_some hf
    simp only [decide_eq_true_eq] at hp
    have : tv = (t, v) := Prod.ext hp hv
    rw [← this]
    exact hm

theorem connectPair_some_elim {stations : List StationBlock} {stops : List String}
    {g g2 : List Edge} {a b : Passing}
    (h : connectPair stations stops g a b = some g2) :
    g2 = g ∨ ∃ bs ∈ stations, ∃ be ∈ stations, ∃ t1 t2 sid eid,
      (t1, sid) ∈ bs.times ∧ (t2, eid) ∈ be.times ∧
      g2 = addEdge g sid eid ((t2 : Int) - (t1 : Int)) := by
  by_cases hskip : optLe b.arrival a.departure = true
  · left
    unfold connectPair at h
    rw [if_pos hskip] at h
    exact (Option.some.inj h).symm
  · right
    cases hdep : a.departure with
    | none =>
      rw [hdep] at hskip
      simp only [connectPair, hdep, if_neg hskip] at h
      cases h
    | some dep =>
      rw [hdep] at hskip
      cases hsn : stops[a.stop_point]? with
      | none =>
        simp only [connectPair, hdep, hsn, if_neg hskip] at h
        cases h
      | some start_name =>
        cases hfs : findStation stations start_name with
        | none =>
          simp only [connectPair, hdep, hsn, hfs, if_neg hskip] at h
          cases h
        | some bs =>
          cases hft : findTime bs dep with
          | none =>
            simp only [connectPair, hdep, hsn, hfs, hft, if_neg hskip] at h
            cases h
          | some sid =>
            cases harr : b.arrival with
            | none =>
              rw [harr] at hskip
              exact absurd rfl hskip
            | some arr =>
              cases hen : stops[b.stop_point]? with
              | none =>
                rw [harr] at hskip
                simp only [connectPair, hdep, hsn, hfs, hft, harr, hen, if_neg hskip] at h
                cases h
              | some end_name =>
                cases hfe : findStation stations end_name with
                | none =>
                  rw [harr] at hskip
                  simp only [connectPair, hdep, hsn, hfs, hft, harr, hen,
                    hfe, if_neg hskip] at h
                  cases h
                | some be =>
                  cases hfte : findTime be arr with
                  | none =>
                    rw [harr] at hskip
                    simp only [connectPair, hdep, hsn, hfs, hft, harr, hen,
                      hfe, hfte, if_neg hskip] at h
                    cases h
                  | some eid =>
                    rw [harr] at hskip
                    simp only [connectPair, hdep, hsn, hfs, hft, harr, hen,
                      hfe, hfte, if_neg hskip, Option.some.injEq] at h
                    exact ⟨bs, (findStation_mem hfs).1, be, (findStation_mem hfe).1,
                      dep, arr, sid, eid, findTime_some hft, findTime_some hfte, h.symm⟩

theorem connectPairs_preserve (stations : List StationBlock) (stops : List String)
    (P : Edge → Prop)
    (hadd : ∀ (g : List Edge) (sid eid : Nat) (w : Int),
      (∃ bs ∈ stations, ∃ be ∈ stations, ∃ t1 t2,
        (t1, sid) ∈ bs.times ∧ (t2, eid) ∈ be.times ∧ w = (t2 : Int) - (t1 : Int)) →
      (∀ e ∈ g, P e) → ∀ e ∈ addEdge g sid eid w, P e) :
    ∀ (ps : List (Passing × Passing)) (g g2 : List Edge),
      connectPairs stations stops g ps = some g2 →
      (∀ e ∈ g, P e) → ∀ e ∈ g2, P e := by
  intro ps
  induction ps with
  | nil =>
    intro g g2 h hg
    unfold connectPairs at h
    cases h
    exact hg
  | cons p ps ih =>
    intro g g2 h hg
    obtain ⟨a, b⟩ := p
    unfold connectPairs at h
    cases hc : connectPair stations stops g a b with
    | none => rw [hc] at h; cases h
    | some gmid =>
      rw [hc] at h
      refine ih gmid g2 h ?_
      rcases connectPair_some_elim hc with rfl | hex
      · exact hg
      · obtain ⟨bs, hbs, be, hbe, t1, t2, sid, eid, ht1, ht2, rfl⟩ := hex
        exact hadd g sid eid _ ⟨bs, hbs, be, hbe, t1, t2, ht1, ht2, rfl⟩ hg

theorem connectJourneys_preserve (stations : List StationBlock) (stops : List String)
    (P : Edge → Prop)
    (hadd : ∀ (g : List Edge) (sid eid : Nat) (w : Int),
      (∃ bs ∈ stations, ∃ be ∈ stations, ∃ t1 t2,
        (t1, sid) ∈ bs.times ∧ (t2, eid) ∈ be.times ∧ w = (t2 : Int) - (t1 : Int)) →
      (∀ e ∈ g, P e) → ∀ e ∈ addEdge g sid eid w, P e) :
    ∀ (js : List Journey) (g g2 : List Edge),
      connectJourneys stations stops g js = some g2 →
      (∀ e ∈ g, P e) → ∀ e ∈ g2, P e := by
  intro js
  induction js with
  | nil =>
    intro g g2 h hg
    unfold connectJourneys at h
    cases h
    exact hg
  | cons j js ih =>
    intro g g2 h hg
    unfold connectJourneys at h
    cases hc : connectJourney stations stops g j with
    | none => rw [hc] at h; cases h
    | some gmid =>
      rw [hc] at h
      refine ih gmid g2 h ?_
      unfold connectJourney at hc
      cases hps : j.passings with
      | nil => rw [hps] at hc; cases hc
      | cons p0 prest =>
        rw [hps] at hc
        exact connectPairs_preserve stations stops P hadd _ g gmid hc hg

theorem connectPairs_nodup (stations : List StationBlock) (stops : List String) :
    ∀ (ps : List (Passing × Passing)) (g g2 : List Edge),
      connectPairs stations stops g ps = some g2 →
      (edgeKeys g).Nodup → (edgeKeys g2).Nodup := by
  intro ps
  induction ps with
  | nil =>
    intro g g2 h hg
    unfold connectPairs at h
    cases h
    exact hg
  | cons p ps ih =>
    intro g g2 h hg
    obtain ⟨a, b⟩ := p
    unfold connectPairs at h
    cases hc : connectPair stations stops g a b with
    | none => rw [hc] at h; cases h
    | some gmid =>
      rw [hc] at h
      refine ih gmid g2 h ?_
      rcases connectPair_some_elim hc with rfl | hex
      · exact hg
      · obtain ⟨bs, hbs, be, hbe, t1, t2, sid, eid, ht1, ht2, rfl⟩ := hex
        exact edgeKeys_addEdge_nodup hg _ _ _

theorem connectJourneys_nodup (stations : List StationBlock) (stops : List String) :
    ∀ (js : List Journey) (g g2 : List Edge),
      connectJourneys stations stops g js = some g2 →
      (edgeKeys g).Nodup → (edgeKeys g2).Nodup := by
  intro js
  induction js with
  | nil =>
    intro g g2 h hg
    unfold connectJourneys at h
    cases h
    exact hg
  | cons j js ih =>
    intro g g2 h hg
    unfold connectJourneys at h
    cases hc : connectJourney stations stops g j with
    | none => rw [hc] at h; cases h
    | some gmid =>
      rw [hc] at h
      refine ih gmid g2 h ?_
      unfold connectJourney at hc
      cases hps : j.passings with
      | nil => rw [hps] at hc; cases hc
      | cons p0 prest =>
        rw [hps] at hc
        exact connectPairs_nodup stations stops _ g gmid hc hg

theorem travel_edges_shape {mc : MultiConnection} {date : Int} {g1 : List Edge}
    (h : connect_between_stations [] (populate_station_info_and_count_verts mc date).1 mc date =
      some g1) :
    ∀ e ∈ g1, ∃ bs ∈ (populate_station_info_and_count_verts mc date).1,
      ∃ be ∈ (populate_station_info_and_count_verts mc date).1, ∃ t1 t2,
      (t1, e.1) ∈ bs.times ∧ (t2, e.2.1) ∈ be.times ∧ e.2.2 = (t2 : Int) - (t1 : Int) := by
  unfold connect_between_stations at h
  refine connectJourneys_preserve (populate_station_info_and_count_verts mc date).1 mc.stops
    (fun e => ∃ bs ∈ (populate_station_info_and_count_verts mc date).1,
      ∃ be ∈ (populate_station_info_and_count_verts mc date).1, ∃ t1 t2,
      (t1, e.1) ∈ bs.times ∧ (t2, e.2.1) ∈ be.times ∧ e.2.2 = (t2 : Int) - (t1 : Int))
    ?_ (mc.iter_valid_journeys date) [] g1 h (by simp)
  intro g sid eid w hex hg e he
  rcases mem_addEdge_elim he with he | rfl
  · exact hg e he
  · obtain ⟨bs, hbs, be, hbe, t1, t2, ht1, ht2, rfl⟩ := hex
    exact ⟨bs, hbs, be, hbe, t1, t2, ht1, ht2, rfl⟩

theorem travel_edges_nodup {mc : MultiConnection} {date : Int} {g1 : List Edge}
    (h : connect_between_stations [] (populate_station_info_and_count_verts mc date).1 mc date =
      some g1) :
    (edgeKeys g1).Nodup := by
  unfold connect_between_stations at h
  exact connectJourneys_nodup _ _ _ [] g1 h (by simp [edgeKeys])

theorem edgeKeys_addEdge (g : List Edge) (a b : Nat) (w : Int) :
    edgeKeys (addEdge g a b w) = edgeKeys g ∨
    edgeKeys (addEdge g a b w) = edgeKeys g ++ [(a, b)] := by
  unfold addEdge
  by_cases hc : (g.any (fun e => e.1 = a && e.2.1 = b)) = true
  · rw [if_pos hc]
    left
    unfold edgeKeys
    rw [List.map_map]
    apply List.map_congr_left
    intro e _
    by_cases hp : e.1 = a ∧ e.2.1 = b
    · simp only [Function.comp_apply, if_pos hp]
      exact Prod.ext hp.1.symm hp.2.symm
    · simp only [Function.comp_apply, if_neg hp]
  · rw [if_neg hc]
    right
    unfold edgeKeys
    rw [List.map_append]
    rfl

theorem edgeKeys_addEdge_persist {g : List Edge} {k : Nat × Nat} (a b : Nat) (w : Int)
    (h : k ∈ edgeKeys g) : k ∈ edgeKeys (addEdge g a b w) := by
  rcases edgeKeys_addEdge g a b w with he | he
  · rw [he]; exact h
  · rw [he]; exact List.mem_append_left _ h

theorem edgeKeys_addEdge_self (g : List Edge) (a b : Nat) (w : Int) :
    (a, b) ∈ edgeKeys (addEdge g a b w) := by
  unfold edgeKeys
  exact List.mem_map.mpr ⟨(a, b, w), mem_addEdge_self g a b w, rfl⟩

theorem edgeKeys_addEdges_mem (es : List Edge) :
    ∀ (g : List Edge) (k : Nat × Nat),
      k ∈ edgeKeys g ∨ k ∈ edgeKeys es → k ∈ edgeKeys (addEdges g es) := by
  induction es with
  | nil =>
    intro g k h
    rcases h with h | h
    · exact h
    · simp [edgeKeys] at h
  | cons e es ih =>
    intro g k h
    show k ∈ edgeKeys (addEdges (addEdge g e.1 e.2.1 e.2.2) es)
    rcases h with h | h
    · exact ih _ k (Or.inl (edgeKeys_addEdge_persist _ _ _ h))
    · rcases List.mem_cons.mp h with rfl | h
      · exact ih _ _ (Or.inl (edgeKeys_addEdge_self g _ _ _))
      · exact ih _ k (Or.inr h)

theorem mem_addEdges_elim {es : List Edge} :
    ∀ {g : List Edge} {e : Edge}, e ∈ addEdges g es → e ∈ g ∨ e ∈ es := by
  induction es with
  | nil => intro g e h; exact Or.inl h
  | cons e0 es ih =>
    intro g e h
    have h2 : e ∈ addEdges (addEdge g e0.1 e0.2.1 e0.2.2) es := h
    rcases ih h2 with h3 | h3
    · rcases mem_addEdge_elim h3 with h4 | h4
      · exact Or.inl h4
      · exact Or.inr (by rw [h4]; exact List.mem_cons_self _ _)
    · exact Or.inr (List.mem_cons_of_mem _ h3)

theorem edgeKeys_addEdges_nodup (es : List Edge) :
    ∀ {g : List Edge}, (edgeKeys g).Nodup → (edgeKeys (addEdges g es)).Nodup := by
  induction es with
  | nil => intro g h; exact h
  | cons e0 es ih =>
    intro g h
    exact ih (edgeKeys_addEdge_nodup h _ _ _)

theorem mem_connect_within_elim {blocks : List StationBlock} :
    ∀ {g : List Edge} {e : Edge}, e ∈ connect_within_stations g blocks →
      e ∈ g ∨ ∃ b ∈ blocks, e ∈ withinStationEdges b := by
  induction blocks with
  | nil => intro g e h; exact Or.inl h
  | cons b0 bs ih =>
    intro g e h
    have h2 : e ∈ connect_within_stations (addEdges g (withinStationEdges b0)) bs := h
    rcases ih h2 with h3 | h3
    · rcases mem_addEdges_elim h3 with h4 | h4
      · exact Or.inl h4
      · exact Or.inr ⟨b0, List.mem_cons_self _ _, h4⟩
    · obtain ⟨b, hb, hm⟩ := h3
      exact Or.inr ⟨b, List.mem_cons_of_mem _ hb, hm⟩

theorem connect_within_nodup (blocks : List StationBlock) :
    ∀ {g : List Edge}, (edgeKeys g).Nodup → (edgeKeys (connect_within_stations g blocks)).Nodup := by
  induction blocks with
  | nil => intro g h; exact h
  | cons b0 bs ih =>
    intro g h
    exact ih (edgeKeys_addEdges_nodup _ h)

theorem connect_within_keys_persist (blocks : List StationBlock) :
    ∀ (g : List Edge) (k : Nat × Nat), k ∈ edgeKeys g →
      k ∈ edgeKeys (connect_within_stations g blocks) := by
  induction blocks with
  | nil => intro g k h; exact h
  | cons b0 bs ih =>
    intro g k h
    exact ih _ k (edgeKeys_addEdges_mem _ _ k (Or.inl h))

theorem connect_within_keys_mem {blocks : List StationBlock} {b : StationBlock}
    (hb : b ∈ blocks) :
    ∀ (g : List Edge) (k : Nat × Nat), k ∈ edgeKeys (withinStationEdges b) →
      k ∈ edgeKeys (connect_within_stations g blocks) := by
  induction blocks with
  | nil => cases hb
  | cons b0 bs ih =>
    intro g k h
    rcases List.mem_cons.mp hb with rfl | hb2
    · exact connect_within_keys_persist bs _ k (edgeKeys_addEdges_mem _ _ k (Or.inr h))
    · exact ih hb2 _ k h

theorem mem_of_key {g : List Edge} {k : Nat × Nat} (h : k ∈ edgeKeys g) :
    ∃ w, (k.1, k.2, w) ∈ g := by
  unfold edgeKeys at h
  obtain ⟨e, he, hk⟩ := List.mem_map.mp h
  cases hk
  exact ⟨e.2.2, he⟩

theorem consecPairs_cons_cons {α : Type} (x y : α) (l : List α) :
    consecPairs (x :: y :: l) = (x, y) :: consecPairs (y :: l) := rfl

theorem mem_consecPairs {α : Type} {l : List α} {pq : α × α} (h : pq ∈ consecPairs l) :
    pq.1 ∈ l ∧ pq.2 ∈ l := by
  unfold consecPairs at h
  obtain ⟨h1, h2⟩ := List.of_mem_zip h
  exact ⟨h1, List.mem_of_mem_tail h2⟩

theorem withinChain_mem_elim (b : StationBlock) :
    ∀ (rest : List (Nat × Nat)) (last : Nat × Nat) (e : Edge),
      e ∈ withinChain b last rest →
      (∃ pq ∈ consecPairs (last :: rest),
        e = (pq.1.2, pq.2.2, (pq.2.1 : Int) - (pq.1.1 : Int))) ∨
      (∃ tv ∈ rest, e = (tv.2, b.fin, 0)) ∨ (∃ tv ∈ rest, e = (b.init, tv.2, 0)) := by
  intro rest
  induction rest with
  | nil => intro last e h; simp [withinChain] at h
  | cons tv rest ih =>
    intro last e h
    unfold withinChain at h
    rcases List.mem_cons.mp h with rfl | h
    · exact Or.inl ⟨(last, tv), by rw [consecPairs_cons_cons]; exact List.mem_cons_self _ _, rfl⟩
    rcases List.mem_cons.mp h with rfl | h
    · exact Or.inr (Or.inl ⟨tv, List.mem_cons_self _ _, rfl⟩)
    rcases List.mem_cons.mp h with rfl | h
    · exact Or.inr (Or.inr ⟨tv, List.mem_cons_self _ _, rfl⟩)
    rcases ih tv e h with h2 | h2 | h2
    · obtain ⟨pq, hpq, he⟩ := h2
      exact Or.inl ⟨pq, by rw [consecPairs_cons_cons]; exact List.mem_cons_of_mem _ hpq, he⟩
    · obtain ⟨tv2, htv2, he⟩ := h2
      exact Or.inr (Or.inl ⟨tv2, List.mem_cons_of_mem _ htv2, he⟩)
    · obtain ⟨tv2, htv2, he⟩ := h2
      exact Or.inr (Or.inr ⟨tv2, List.mem_cons_of_mem _ htv2, he⟩)

theorem withinStationEdges_mem_elim {b : StationBlock} {e : Edge}
    (h : e ∈ withinStationEdges b) :
    (∃ pq ∈ consecPairs b.times, e = (pq.1.2, pq.2.2, (pq.2.1 : Int) - (pq.1.1 : Int))) ∨
    (∃ tv ∈ b.times, e = (tv.2, b.fin, 0)) ∨ (∃ tv ∈ b.times, e = (b.init, tv.2, 0)) := by
  unfold withinStationEdges at h
  cases ht : b.times with
  | nil => rw [ht] at h; simp at h
  | cons tv0 rest =>
    rw [ht] at h
    rcases List.mem_cons.mp h with rfl | h
    · exact Or.inr (Or.inl ⟨tv0, List.mem_cons_self _ _, rfl⟩)
    rcases List.mem_cons.mp h with rfl | h
    · exact Or.inr (Or.inr ⟨tv0, List.mem_cons_self _ _, rfl⟩)
    rcases withinChain_mem_elim b rest tv0 e h with h2 | h2 | h2
    · obtain ⟨pq, hpq, he⟩ := h2
      exact Or.inl ⟨pq, hpq, he⟩
    · obtain ⟨tv2, htv2, he⟩ := h2
      exact Or.inr (Or.inl ⟨tv2, List.mem_cons_of_mem _ htv2, he⟩)
    · obtain ⟨tv2, htv2, he⟩ := h2
      exact Or.inr (Or.inr ⟨tv2, List.mem_cons_of_mem _ htv2, he⟩)

theorem withinChain_fan_mem (b : StationBlock) :
    ∀ (rest : List (Nat × Nat)) (last : Nat × Nat) (tv : Nat × Nat), tv ∈ rest →
      (tv.2, b.fin, 0) ∈ withinChain b last rest ∧
      (b.init, tv.2, 0) ∈ withinChain b last rest := by
  intro rest
  induction rest with
  | nil => intro last tv h; simp at h
  | cons tv0 rest ih =>
    intro last tv h
    unfold withinChain
    rcases List.mem_cons.mp h with rfl | h
    · constructor
      · exact List.mem_cons_of_mem _ (List.mem_cons_self _ _)
      · exact List.mem_cons_of_mem _ (List.mem_cons_of_mem _ (List.mem_cons_self _ _))
    · have := ih tv0 tv h
      constructor
      · exact List.mem_cons_of_mem _ (List.mem_cons_of_mem _ (List.mem_cons_of_mem _ this.1))
      · exact List.mem_cons_of_mem _ (List.mem_cons_of_mem _ (List.mem_cons_of_mem _ this.2))

theorem fan_mem_within {b : StationBlock} {tv : Nat × Nat} (h : tv ∈ b.times) :
    (tv.2, b.fin, 0) ∈ withinStationEdges b ∧ (b.init, tv.2, 0) ∈ withinStationEdges b := by
  unfold withinStationEdges
  cases ht : b.times with
  | nil => rw [ht] at h; simp at h
  | cons tv0 rest =>
    rw [ht] at h
    rcases List.mem_cons.mp h with rfl | h
    · exact ⟨List.mem_cons_self _ _,
        List.mem_cons_of_mem _ (List.mem_cons_self _ _)⟩
    · have := withinChain_fan_mem b rest tv0 tv h
      exact ⟨List.mem_cons_of_mem _ (List.mem_cons_of_mem _ this.1),
        List.mem_cons_of_mem _ (List.mem_cons_of_mem _ this.2)⟩

theorem withinChain_pair_mem (b : StationBlock) :
    ∀ (rest : List (Nat × Nat)) (last : Nat × Nat) (pq : (Nat × Nat) × (Nat × Nat)),
      pq ∈ consecPairs (last :: rest) →
      (pq.1.2, pq.2.2, (pq.2.1 : Int) - (pq.1.1 : Int)) ∈ withinChain b last rest := by
  intro rest
  induction rest with
  | nil => intro last pq h; simp [consecPairs] at h
  | cons tv0 rest ih =>
    intro last pq h
    rw [consecPairs_cons_cons] at h
    unfold withinChain
    rcases List.mem_cons.mp h with rfl | h
    · exact List.mem_cons_self _ _
    · exact List.mem_cons_of_mem _ (List.mem_cons_of_mem _
        (List.mem_cons_of_mem _ (ih tv0 pq h)))

theorem chain_mem_within {b : StationBlock} {pq : (Nat × Nat) × (Nat × Nat)}
    (h : pq ∈ consecPairs b.times) :
    (pq.1.2, pq.2.2, (pq.2.1 : Int) - (pq.1.1 : Int)) ∈ withinStationEdges b := by
  unfold withinStationEdges
  cases ht : b.times with
  | nil => rw [ht] at h; simp [consecPairs] at h
  | cons tv0 rest =>
    rw [ht] at h
    exact List.mem_cons_of_mem _ (List.mem_cons_of_mem _ (withinChain_pair_mem b rest tv0 pq h))

theorem withinStationEdges_endpoints {b : StationBlock} {e : Edge}
    (h : e ∈ withinStationEdges b) : e.1 ∈ blockIds b ∧ e.2.1 ∈ blockIds b := by
  rcases withinStationEdges_mem_elim h with h2 | h2 | h2
  · obtain ⟨pq, hpq, rfl⟩ := h2
    obtain ⟨h1, h2⟩ := mem_consecPairs hpq
    constructor
    · exact List.mem_cons_of_mem _ (List.mem_cons_of_mem _ (List.mem_map_of_mem _ h1))
    · exact List.mem_cons_of_mem _ (List.mem_cons_of_mem _ (List.mem_map_of_mem _ h2))
  · obtain ⟨tv, htv, rfl⟩ := h2
    constructor
    · exact List.mem_cons_of_mem _ (List.mem_cons_of_mem _ (List.mem_map_of_mem _ htv))
    · exact List.mem_cons_of_mem _ (List.mem_cons_self _ _)
  · obtain ⟨tv, htv, rfl⟩ := h2
    constructor
    · exact List.mem_cons_self _ _
    · exact List.mem_cons_of_mem _ (List.mem_cons_of_mem _ (List.mem_map_of_mem _ htv))

theorem mem_allIds_of_blockId {mc : MultiConnection} {date : Int} {b : StationBlock}
    (hb : b ∈ (populate_station_info_and_count_verts mc date).1) {x : Nat}
    (hx : x ∈ blockIds b) : x < (populate_station_info_and_count_verts mc date).2 := by
  have hmem : x ∈ allIds (populate_station_info_and_count_verts mc date).1 :=
    List.mem_flatMap.mpr ⟨b, hb, hx⟩
  have h := numberStations_allIds (collectStationTimes mc date) (stationOrder mc) 0
  have h2 : allIds (populate_station_info_and_count_verts mc date).1 =
      List.range' 0 ((populate_station_info_and_count_verts mc date).2 - 0) := h
  rw [h2] at hmem
  have := List.mem_range'_1.mp hmem
  omega

/-- C9: a station that no valid journey passes on the target date still receives
an `Init` and a `Final` vertex id with `fin = init + 1`; both ids are inside the
graph's vertex id space (below the returned vertex count) and are isolated — no
edge of the built graph has either id as source or target. -/
theorem isolated_station (mc : MultiConnection) (date : Int) (G : ConnectionGraph)
    (hG : ConnectionGraph.new mc date = some G) :
    ∀ b ∈ G.stations, b.times = [] →
      b.fin = b.init + 1 ∧
      b.init < (populate_station_info_and_count_verts mc date).2 ∧
      b.fin < (populate_station_info_and_count_verts mc date).2 ∧
      ∀ e ∈ G.graph, e.1 ≠ b.init ∧ e.1 ≠ b.fin ∧ e.2.1 ≠ b.init ∧ e.2.1 ≠ b.fin := by
  intro b hb htimes
  obtain ⟨hs, hids, g1, hg1, hgraph⟩ := new_inv hG
  rw [hs] at hb
  have hsh := numberStations_shape (collectStationTimes mc date) (stationOrder mc) 0 b hb
  refine ⟨hsh.1, mem_allIds_of_blockId hb (List.mem_cons_self _ _),
    mem_allIds_of_blockId hb (List.mem_cons_of_mem _ (List.mem_cons_self _ _)), ?_⟩
  intro e he
  rw [hgraph] at he
  rcases mem_connect_within_elim he with he | he
  · obtain ⟨bs, hbs, be, hbe, t1, t2, ht1, ht2, -⟩ := travel_edges_shape hg1 e he
    have hf1 := ((time_id_facts mc date bs hbs (t1, e.1) ht1).1 b hb)
    have hf2 := ((time_id_facts mc date be hbe (t2, e.2.1) ht2).1 b hb)
    exact ⟨hf1.1, hf1.2, hf2.1, hf2.2⟩
  · obtain ⟨b2, hb2, hm⟩ := he
    by_cases hbb : b2 = b
    · subst hbb
      rw [show withinStationEdges b2 = [] from by unfold withinStationEdges; rw [htimes]] at hm
      simp at hm
    · have hdisj := blocks_ids_disjoint mc date b2 hb2 b hb hbb
      have hep := withinStationEdges_endpoints hm
      refine ⟨?_, ?_, ?_, ?_⟩
      · intro hc
        exact hdisj e.1 hep.1 (by rw [hc]; exact List.mem_cons_self _ _)
      · intro hc
        exact hdisj e.1 hep.1
          (by rw [hc]; exact List.mem_cons_of_mem _ (List.mem_cons_self _ _))
      · intro hc
        exact hdisj e.2.1 hep.2 (by rw [hc]; exact List.mem_cons_self _ _)
      · intro hc
        exact hdisj e.2.1 hep.2
          (by rw [hc]; exact List.mem_cons_of_mem _ (List.mem_cons_self _ _))

/-- Witness for C9: in the extended example graph the unused station `D` owns
ids 8 and 9, below the vertex count 10, and no edge touches them. -/
theorem isolated_station_witness :
    (9 : Nat) = 8 + 1 ∧
    8 < (populate_station_info_and_count_verts cex9 0).2 ∧
    9 < (populate_station_info_and_count_verts cex9 0).2 ∧
    ∀ e ∈ cexG9.graph, e.1 ≠ 8 ∧ e.1 ≠ 9 ∧ e.2.1 ≠ 8 ∧ e.2.1 ≠ 9 :=
  isolated_station cex9 0 cexG9 rfl ⟨"D", 8, 9, []⟩ (by decide) rfl

theorem pairwise_consecPairs {α : Type} {R : α → α → Prop} :
    ∀ {l : List α}, List.Pairwise R l → ∀ pq ∈ consecPairs l, R pq.1 pq.2 := by
  intro l
  induction l with
  | nil => intro _ pq hpq; simp [consecPairs] at hpq
  | cons x xs ih =>
    intro h pq hpq
    cases xs with
    | nil => simp [consecPairs] at hpq
    | cons y ys =>
      rw [consecPairs_cons_cons] at hpq
      rw [List.pairwise_cons] at h
      rcases List.mem_cons.mp hpq with rfl | hpq
      · exact h.1 y (List.mem_cons_self _ _)
      · exact ih h.2 pq hpq

theorem init_source_edges {mc : MultiConnection} {date : Int} {G : ConnectionGraph}
    (hG : ConnectionGraph.new mc date = some G) {b : StationBlock} (hb : b ∈ G.stations) :
    ∀ e ∈ G.graph, e.1 = b.init → ∃ tv ∈ b.times, e = (b.init, tv.2, 0) := by
  obtain ⟨hs, -, g1, hg1, hgraph⟩ := new_inv hG
  rw [hs] at hb
  intro e he hsrc
  rw [hgraph] at he
  rcases mem_connect_within_elim he with he | he
  · obtain ⟨bs, hbs, be, hbe, t1, t2, ht1, ht2, -⟩ := travel_edges_shape hg1 e he
    exact absurd hsrc ((time_id_facts mc date bs hbs (t1, e.1) ht1).1 b hb).1
  · obtain ⟨b2, hb2, hm⟩ := he
    by_cases hbb : b2 = b
    · subst hbb
      rcases withinStationEdges_mem_elim hm with h2 | h2 | h2
      · obtain ⟨pq, hpq, rfl⟩ := h2
        exact absurd hsrc
          ((time_id_facts mc date b2 hb2 pq.1 (mem_consecPairs hpq).1).1 b2 hb2).1
      · obtain ⟨tv, htv, rfl⟩ := h2
        exact absurd hsrc ((time_id_facts mc date b2 hb2 tv htv).1 b2 hb2).1
      · obtain ⟨tv, htv, rfl⟩ := h2
        exact ⟨tv, htv, rfl⟩
    · have hdisj := blocks_ids_disjoint mc date b2 hb2 b hb hbb
      have hep := withinStationEdges_endpoints hm
      exact absurd (by rw [hsrc]; exact List.mem_cons_self _ _ : e.1 ∈ blockIds b)
        (fun hc => hdisj e.1 hep.1 hc)

theorem fin_target_edges {mc : MultiConnection} {date : Int} {G : ConnectionGraph}
    (hG : ConnectionGraph.new mc date = some G) {b : StationBlock} (hb : b ∈ G.stations) :
    ∀ e ∈ G.graph, e.2.1 = b.fin → ∃ tv ∈ b.times, e = (tv.2, b.fin, 0) := by
  obtain ⟨hs, -, g1, hg1, hgraph⟩ := new_inv hG
  rw [hs] at hb
  intro e he htgt
  rw [hgraph] at he
  rcases mem_connect_within_elim he with he | he
  · obtain ⟨bs, hbs, be, hbe, t1, t2, ht1, ht2, -⟩ := travel_edges_shape hg1 e he
    exact absurd htgt ((time_id_facts mc date be hbe (t2, e.2.1) ht2).1 b hb).2
  · obtain ⟨b2, hb2, hm⟩ := he
    by_cases hbb : b2 = b
    · subst hbb
      rcases withinStationEdges_mem_elim hm with h2 | h2 | h2
      · obtain ⟨pq, hpq, rfl⟩ := h2
        exact absurd htgt
          ((time_id_facts mc date b2 hb2 pq.2 (mem_consecPairs hpq).2).1 b2 hb2).2
      · obtain ⟨tv, htv, rfl⟩ := h2
        exact ⟨tv, htv, rfl⟩
      · obtain ⟨tv, htv, rfl⟩ := h2
        exact absurd htgt ((time_id_facts mc date b2 hb2 tv htv).1 b2 hb2).2
    · have hdisj := blocks_ids_disjoint mc date b2 hb2 b hb hbb
      have hep := withinStationEdges_endpoints hm
      exact absurd (by rw [htgt]; exact List.mem_cons_of_mem _ (List.mem_cons_self _ _) :
        e.2.1 ∈ blockIds b) (fun hc => hdisj e.2.1 hep.2 hc)

theorem init_fan_mem {mc : MultiConnection} {date : Int} {G : ConnectionGraph}
    (hG : ConnectionGraph.new mc date = some G) {b : StationBlock} (hb : b ∈ G.stations) :
    ∀ tv ∈ b.times, (b.init, tv.2, 0) ∈ G.graph := by
  obtain ⟨hs, -, g1, hg1, hgraph⟩ := new_inv hG
  intro tv htv
  have hkey : (b.init, tv.2) ∈ edgeKeys (withinStationEdges b) :=
    List.mem_map.mpr ⟨(b.init, tv.2, 0), (fan_mem_within htv).2, rfl⟩
  have hk2 : (b.init, tv.2) ∈ edgeKeys G.graph := by
    rw [hgraph]
    exact connect_within_keys_mem (by rw [← hs]; exact hb) g1 _ hkey
  obtain ⟨w, hw⟩ := mem_of_key hk2
  obtain ⟨tv2, htv2, heq⟩ := init_source_edges hG hb (b.init, tv.2, w) hw rfl
  have h2 : w = 0 := congrArg (fun e : Edge => e.2.2) heq
  rw [h2] at hw
  exact hw

theorem fin_fan_mem {mc : MultiConnection} {date : Int} {G : ConnectionGraph}
    (hG : ConnectionGraph.new mc date = some G) {b : StationBlock} (hb : b ∈ G.stations) :
    ∀ tv ∈ b.times, (tv.2, b.fin, 0) ∈ G.graph := by
  obtain ⟨hs, -, g1, hg1, hgraph⟩ := new_inv hG
  intro tv htv
  have hkey : (tv.2, b.fin) ∈ edgeKeys (withinStationEdges b) :=
    List.mem_map.mpr ⟨(tv.2, b.fin, 0), (fan_mem_within htv).1, rfl⟩
  have hk2 : (tv.2, b.fin) ∈ edgeKeys G.graph := by
    rw [hgraph]
    exact connect_within_keys_mem (by rw [← hs]; exact hb) g1 _ hkey
  obtain ⟨w, hw⟩ := mem_of_key hk2
  obtain ⟨tv2, htv2, heq⟩ := fin_target_edges hG hb (tv.2, b.fin, w) hw rfl
  have h2 : w = 0 := congrArg (fun e : Edge => e.2.2) heq
  rw [h2] at hw
  exact hw

theorem time_time_edge_weight {mc : MultiConnection} {date : Int} {G : ConnectionGraph}
    (hG : ConnectionGraph.new mc date = some G) {b : StationBlock} (hb : b ∈ G.stations)
    {p q : Nat × Nat} (hp : p ∈ b.times) (hq : q ∈ b.times) {w : Int}
    (he : (p.2, q.2, w) ∈ G.graph) : w = (q.1 : Int) - (p.1 : Int) := by
  obtain ⟨hs, -, g1, hg1, hgraph⟩ := new_inv hG
  rw [hs] at hb
  rw [hgraph] at he
  rcases mem_connect_within_elim he with he | he
  · obtain ⟨bs, hbs, be, hbe, t1, t2, ht1, ht2, hw⟩ := travel_edges_shape hg1 _ he
    obtain ⟨-, hpeq⟩ := (time_id_facts mc date b hb p hp).2 bs hbs (t1, p.2) ht1 rfl
    obtain ⟨-, hqeq⟩ := (time_id_facts mc date b hb q hq).2 be hbe (t2, q.2) ht2 rfl
    have h1 : t1 = p.1 := congrArg Prod.fst hpeq
    have h2 : t2 = q.1 := congrArg Prod.fst hqeq
    rw [h1, h2] at hw
    exact hw
  · obtain ⟨b2, hb2, hm⟩ := he
    have hep := withinStationEdges_endpoints hm
    by_cases hbb : b2 = b
    · subst hbb
      rcases withinStationEdges_mem_elim hm with h2 | h2 | h2
      · obtain ⟨pq, hpq, heq⟩ := h2
        have hps : pq.1.2 = p.2 := (congrArg (fun e : Edge => e.1) heq).symm
        have hqs : pq.2.2 = q.2 := (congrArg (fun e : Edge => e.2.1) heq).symm
        obtain ⟨-, hpe⟩ := (time_id_facts mc date b2 hb2 p hp).2 b2 hb2 pq.1
          (mem_consecPairs hpq).1 hps
        obtain ⟨-, hqe⟩ := (time_id_facts mc date b2 hb2 q hq).2 b2 hb2 pq.2
          (mem_consecPairs hpq).2 hqs
        have hww : w = (pq.2.1 : Int) - (pq.1.1 : Int) :=
          congrArg (fun e : Edge => e.2.2) heq
        rw [hww, hpe, hqe]
      · obtain ⟨tv, htv, heq⟩ := h2
        have : q.2 = b2.fin := congrArg (fun e : Edge => e.2.1) heq
        exact absurd this ((time_id_facts mc date b2 hb2 q hq).1 b2 hb2).2
      · obtain ⟨tv, htv, heq⟩ := h2
        have : p.2 = b2.init := congrArg (fun e : Edge => e.1) heq
        exact absurd this ((time_id_facts mc date b2 hb2 p hp).1 b2 hb2).1
    · exfalso
      have hdisj := blocks_ids_disjoint mc date b2 hb2 b hb hbb
      have hpmem : p.2 ∈ blockIds b :=
        List.mem_cons_of_mem _ (List.mem_cons_of_mem _ (List.mem_map_of_mem _ hp))
      exact hdisj (p.2) hep.1 hpmem

theorem wait_chain_mem {mc : MultiConnection} {date : Int} {G : ConnectionGraph}
    (hG : ConnectionGraph.new mc date = some G) {b : StationBlock} (hb : b ∈ G.stations) :
    ∀ pq ∈ consecPairs b.times,
      (pq.1.2, pq.2.2, (pq.2.1 : Int) - (pq.1.1 : Int)) ∈ G.graph := by
  obtain ⟨hs, -, g1, hg1, hgraph⟩ := new_inv hG
  intro pq hpq
  have hkey : (pq.1.2, pq.2.2) ∈ edgeKeys (withinStationEdges b) :=
    List.mem_map.mpr ⟨_, chain_mem_within hpq, rfl⟩
  have hk2 : (pq.1.2, pq.2.2) ∈ edgeKeys G.graph := by
    rw [hgraph]
    exact connect_within_keys_mem (by rw [← hs]; exact hb) g1 _ hkey
  obtain ⟨w, hw⟩ := mem_of_key hk2
  have := time_time_edge_weight hG hb (mem_consecPairs hpq).1 (mem_consecPairs hpq).2 hw
  rw [this] at hw
  exact hw

theorem graph_keys_nodup {mc : MultiConnection} {date : Int} {G : ConnectionGraph}
    (hG : ConnectionGraph.new mc date = some G) : (edgeKeys G.graph).Nodup := by
  obtain ⟨-, -, g1, hg1, hgraph⟩ := new_inv hG
  rw [hgraph]
  exact connect_within_nodup _ (travel_edges_nodup hg1)

theorem times_snd_nodup {mc : MultiConnection} {date : Int} {b : StationBlock}
    (hb : b ∈ (populate_station_info_and_count_verts mc date).1) :
    (b.times.map (fun tv => tv.2)).Nodup := by
  have hsh := numberStations_shape (collectStationTimes mc date) (stationOrder mc) 0 b hb
  rw [hsh.2.1, assignTimes_map_snd]
  exact List.nodup_range' _ _

theorem init_filter_length {mc : MultiConnection} {date : Int} {G : ConnectionGraph}
    (hG : ConnectionGraph.new mc date = some G) {b : StationBlock} (hb : b ∈ G.stations) :
    (G.graph.filter (fun e => e.1 = b.init)).length = b.times.length := by
  have hs := (new_inv hG).1
  have hkeysnd := graph_keys_nodup hG
  have hgnd : G.graph.Nodup := hkeysnd.of_map _
  have hsndnd : (b.times.map (fun tv => tv.2)).Nodup :=
    times_snd_nodup (by rw [← hs]; exact hb)
  have htimesnd : b.times.Nodup := hsndnd.of_map _
  have hfan_nd : (b.times.map (fun tv => ((b.init, tv.2, 0) : Edge))).Nodup := by
    refine (List.nodup_map_iff_inj_on htimesnd).mpr ?_
    intro x hx y hy hxy
    have : x.2 = y.2 := congrArg (fun e : Edge => e.2.1) hxy
    exact List.inj_on_of_nodup_map hsndnd hx hy this
  have hperm : List.Perm (G.graph.filter (fun e => e.1 = b.init))
      (b.times.map (fun tv => ((b.init, tv.2, 0) : Edge))) := by
    refine (List.perm_ext_iff_of_nodup (hgnd.filter _) hfan_nd).mpr ?_
    intro e
    constructor
    · intro he
      have hm := List.mem_filter.mp he
      have hpred : e.1 = b.init := by
        have := hm.2
        simpa using this
      obtain ⟨tv, htv, rfl⟩ := init_source_edges hG hb e hm.1 hpred
      exact List.mem_map.mpr ⟨tv, htv, rfl⟩
    · intro he
      obtain ⟨tv, htv, rfl⟩ := List.mem_map.mp he
      refine List.mem_filter.mpr ⟨init_fan_mem hG hb tv htv, by simp⟩
  rw [hperm.length_eq, List.length_map]

theorem fin_filter_length {mc : MultiConnection} {date : Int} {G : ConnectionGraph}
    (hG : ConnectionGraph.new mc date = some G) {b : StationBlock} (hb : b ∈ G.stations) :
    (G.graph.filter (fun e => e.2.1 = b.fin)).length = b.times.length := by
  have hs := (new_inv hG).1
  have hkeysnd := graph_keys_nodup hG
  have hgnd : G.graph.Nodup := hkeysnd.of_map _
  have hsndnd : (b.times.map (fun tv => tv.2)).Nodup :=
    times_snd_nodup (by rw [← hs]; exact hb)
  have htimesnd : b.times.Nodup := hsndnd.of_map _
  have hfan_nd : (b.times.map (fun tv => ((tv.2, b.fin, 0) : Edge))).Nodup := by
    refine (List.nodup_map_iff_inj_on htimesnd).mpr ?_
    intro x hx y hy hxy
    have : x.2 = y.2 := congrArg (fun e : Edge => e.1) hxy
    exact List.inj_on_of_nodup_map hsndnd hx hy this
  have hperm : List.Perm (G.graph.filter (fun e => e.2.1 = b.fin))
      (b.times.map (fun tv => ((tv.2, b.fin, 0) : Edge))) := by
    refine (List.perm_ext_iff_of_nodup (hgnd.filter _) hfan_nd).mpr ?_
    intro e
    constructor
    · intro he
      have hm := List.mem_filter.mp he
      have hpred : e.2.1 = b.fin := by
        have := hm.2
        simpa using this
      obtain ⟨tv, htv, rfl⟩ := fin_target_edges hG hb e hm.1 hpred
      exact List.mem_map.mpr ⟨tv, htv, rfl⟩
    · intro he
      obtain ⟨tv, htv, rfl⟩ := List.mem_map.mp he
      refine List.mem_filter.mpr ⟨fin_fan_mem hG hb tv htv, by simp⟩
  rw [hperm.length_eq, List.length_map]

theorem consecPairs_length {α : Type} (l : List α) : (consecPairs l).length = l.length - 1 := by
  unfold consecPairs
  rw [List.length_zip, List.length_tail]
  omega

theorem waitingEdges_length (b : StationBlock) :
    (waitingEdges b).length = b.times.length - 1 := by
  unfold waitingEdges
  rw [List.length_map, consecPairs_length]

theorem withinChain_filter (b : StationBlock) :
    ∀ (rest : List (Nat × Nat)) (last : Nat × Nat),
      (∀ tv ∈ last :: rest, tv.2 ≠ b.init ∧ tv.2 ≠ b.fin) →
      (withinChain b last rest).filter (fun e => e.1 ≠ b.init ∧ e.2.1 ≠ b.fin) =
        (consecPairs (last :: rest)).map
          (fun pq => ((pq.1.2, pq.2.2, (pq.2.1 : Int) - (pq.1.1 : Int)) : Edge)) := by
  intro rest
  induction rest with
  | nil => intro last h; rfl
  | cons tv rest ih =>
    intro last h
    have hlast := h last (List.mem_cons_self _ _)
    have htv := h tv (List.mem_cons_of_mem _ (List.mem_cons_self _ _))
    rw [consecPairs_cons_cons]
    show ((last.2, tv.2, (tv.1 : Int) - (last.1 : Int)) :: (tv.2, b.fin, 0) ::
      (b.init, tv.2, 0) :: withinChain b tv rest).filter
        (fun e => e.1 ≠ b.init ∧ e.2.1 ≠ b.fin) = _
    rw [List.filter_cons, List.filter_cons, List.filter_cons]
    rw [if_pos (by simp only [decide_eq_true_eq]; exact ⟨hlast.1, htv.2⟩)]
    rw [if_neg (by simp)]
    rw [if_neg (by simp)]
    rw [List.map_cons]
    congr 1
    exact ih tv (fun tv2 htv2 => h tv2 (List.mem_cons_of_mem _ htv2))

theorem within_filter_eq_waiting {mc : MultiConnection} {date : Int} {b : StationBlock}
    (hb : b ∈ (populate_station_info_and_count_verts mc date).1) :
    (withinStationEdges b).filter (fun e => e.1 ≠ b.init ∧ e.2.1 ≠ b.fin) =
      waitingEdges b := by
  have hfacts : ∀ tv ∈ b.times, tv.2 ≠ b.init ∧ tv.2 ≠ b.fin :=
    fun tv htv => (time_id_facts mc date b hb tv htv).1 b hb
  unfold withinStationEdges waitingEdges
  cases ht : b.times with
  | nil => rfl
  | cons tv0 rest =>
    rw [ht] at hfacts
    have htv0 := hfacts tv0 (List.mem_cons_self _ _)
    rw [List.filter_cons, List.filter_cons]
    rw [if_neg (by simp)]
    rw [if_neg (by simp)]
    exact withinChain_filter b rest tv0 hfacts

theorem times_fst_pairwise {mc : MultiConnection} {date : Int} {b : StationBlock}
    (hb : b ∈ (populate_station_info_and_count_verts mc date).1) :
    List.Pairwise (fun p q : Nat × Nat => p.1 < q.1) b.times := by
  have hsh := numberStations_shape (collectStationTimes mc date) (stationOrder mc) 0 b hb
  have hmap : b.times.map (fun tv => tv.1) = collectStationTimes mc date b.name := by
    rw [hsh.2.1, assignTimes_map_fst]
  have hsort := collectStationTimes_sorted mc date b.name
  rw [← hmap] at hsort
  exact List.pairwise_map.mp hsort

/-- C8: for every station of a built graph with at least one recorded time,
exactly `n` edges leave the station's `Init` vertex — one zero-weight edge to
each of its `n` time vertices and nothing else; exactly `n` edges enter its
`Final` vertex — one zero-weight edge from each time vertex and nothing else;
and the station's waiting edges (its in-station edges that neither leave `Init`
nor enter `Final`) are exactly the chain of `n - 1` edges linking consecutive
recorded times in ascending order, each present in the graph and weighted by the
strictly positive time delta in seconds. -/
theorem station_fan_and_wait_edges (mc : MultiConnection) (date : Int) (G : ConnectionGraph)
    (hG : ConnectionGraph.new mc date = some G) :
    ∀ b ∈ G.stations, b.times ≠ [] →
      ((G.graph.filter (fun e => e.1 = b.init)).length = b.times.length ∧
        (∀ e ∈ G.graph, e.1 = b.init → ∃ tv ∈ b.times, e = (b.init, tv.2, 0)) ∧
        ∀ tv ∈ b.times, (b.init, tv.2, 0) ∈ G.graph) ∧
      ((G.graph.filter (fun e => e.2.1 = b.fin)).length = b.times.length ∧
        (∀ e ∈ G.graph, e.2.1 = b.fin → ∃ tv ∈ b.times, e = (tv.2, b.fin, 0)) ∧
        ∀ tv ∈ b.times, (tv.2, b.fin, 0) ∈ G.graph) ∧
      ((withinStationEdges b).filter (fun e => e.1 ≠ b.init ∧ e.2.1 ≠ b.fin) =
          waitingEdges b ∧
        (waitingEdges b).length = b.times.length - 1 ∧
        ∀ pq ∈ consecPairs b.times,
          (pq.1.2, pq.2.2, (pq.2.1 : Int) - (pq.1.1 : Int)) ∈ G.graph ∧
          pq.1.1 < pq.2.1 ∧ 0 < (pq.2.1 : Int) - (pq.1.1 : Int)) := by
  intro b hb _hne
  have hs := (new_inv hG).1
  have hb2 : b ∈ (populate_station_info_and_count_verts mc date).1 := by
    rw [← hs]; exact hb
  refine ⟨⟨init_filter_length hG hb, init_source_edges hG hb, init_fan_mem hG hb⟩,
    ⟨fin_filter_length hG hb, fin_target_edges hG hb, fin_fan_mem hG hb⟩,
    within_filter_eq_waiting hb2, waitingEdges_length b, ?_⟩
  intro pq hpq
  have hlt : pq.1.1 < pq.2.1 := pairwise_consecPairs (times_fst_pairwise hb2) pq hpq
  refine ⟨wait_chain_mem hG hb pq hpq, hlt, ?_⟩
  have : (pq.1.1 : Int) < (pq.2.1 : Int) := by exact_mod_cast hlt
  omega

/-- Witness for C8 at station `A` of the example graph: two edges leave its
`Init` vertex 0, the fan edge to time vertex 2 is present, both fan-in edges
into `Final` exist, and the single waiting edge from time vertex 2 to 3 carries
weight 100. -/
theorem station_fan_and_wait_edges_witness :
    (cexG.graph.filter (fun e => e.1 = 0)).length = 2 ∧
    ((0, 2, 0) : Edge) ∈ cexG.graph ∧
    (cexG.graph.filter (fun e => e.2.1 = 1)).length = 2 ∧
    ((2, 3, 100) : Edge) ∈ cexG.graph := by
  have h := station_fan_and_wait_edges cex1 0 cexG rfl ⟨"A", 0, 1, [(100, 2), (200, 3)]⟩
    (by decide) (by decide)
  refine ⟨h.1.1, h.1.2.2 (100, 2) (by decide), h.2.1.1, ?_⟩
  have h2 := (h.2.2.2.2 ((100, 2), (200, 3)) (by decide)).1
  have h3 : (((200 : Nat) : Int) - ((100 : Nat) : Int)) = (100 : Int) := by norm_num
  show ((2, 3, ((100 : Int))) : Edge) ∈ cexG.graph
  rw [← h3]
  exact h2

/-- C2 counterexample: the feed `cex2` has exactly one valid journey, whose
single consecutive passing pair has no departure time on the first passing but
an arrival time on the second (a "times missing" pair which the claim says is
silently skipped with no other effect); the code instead panics — construction
yields no graph at all. -/
theorem travel_pair_counterexample :
    (cex2.iter_valid_journeys 0).map (fun j =>
        j.passings.map (fun p => (p.arrival, p.departure))) =
      [[(some 100, none), (some 200, none)]] ∧
    ConnectionGraph.new cex2 0 = none :=
  ⟨by decide, by decide⟩

theorem getD_stops_eq {l : List String} {i : Nat} (h : i < l.length) :
    l[i]? = some (l.getD i "") := by
  rw [List.getElem?_eq_getElem h]
  rw [List.getD_eq_getElem?_getD, List.getElem?_eq_getElem h]
  rfl

theorem getD_stops_mem {l : List String} {i : Nat} (h : i < l.length) :
    l.getD i "" ∈ l := by
  rw [List.getD_eq_getElem?_getD, List.getElem?_eq_getElem h]
  exact List.getElem_mem h

theorem findStation_isSome (mc : MultiConnection) (date : Int) {name : String}
    (h : name ∈ mc.stops) :
    ∃ bs, findStation (populate_station_info_and_count_verts mc date).1 name = some bs ∧
      bs.name = name := by
  have hord : name ∈ stationOrder mc := mem_stationOrder.mpr h
  have hnames : ((populate_station_info_and_count_verts mc date).1).map (fun b => b.name) =
      stationOrder mc :=
    numberStations_names (collectStationTimes mc date) (stationOrder mc) 0
  rw [← hnames] at hord
  obtain ⟨bs, hbs, hname⟩ := List.mem_map.mp hord
  cases hf : findStation (populate_station_info_and_count_verts mc date).1 name with
  | none =>
    exfalso
    unfold findStation at hf
    rw [List.find?_eq_none] at hf
    exact hf bs hbs (by simp [hname])
  | some bs2 =>
    obtain ⟨-, hp⟩ := findStation_mem hf
    exact ⟨bs2, rfl, hp⟩

theorem findTime_isSome (b : StationBlock) (t : Nat) (h : ∃ v, (t, v) ∈ b.times) :
    ∃ v, findTime b t = some v := by
  obtain ⟨v, hv⟩ := h
  unfold findTime
  cases hf : b.times.find? (fun tv => tv.1 = t) with
  | none =>
    exfalso
    rw [List.find?_eq_none] at hf
    exact hf (t, v) hv (by simp)
  | some tv => exact ⟨tv.2, rfl⟩

/-- C2 amended: for a consecutive passing pair `(a, b)` of a journey valid on
the target date (over a well-formed feed), the pair loop adds the travel edge
from the departure-time vertex of `a`'s station to the arrival-time vertex of
`b`'s station, weighted by the elapsed seconds, exactly when both times are
present and the arrival is strictly later; a pair whose arrival is at most the
departure under the `Option` ordering — times equal, going backward, arrival
missing, or both missing — is silently skipped with no effect on the graph; but
a pair whose departure is missing while its arrival is present is NOT skipped:
the code unwraps the missing departure and construction panics. -/
theorem travel_pair_semantics (mc : MultiConnection) (date : Int) (g : List Edge)
    (j : Journey) (hj : j ∈ mc.iter_valid_journeys date) (a b : Passing)
    (hpair : (a, b) ∈ consecPairs j.passings)
    (hwf : ∀ p ∈ j.passings, p.stop_point < mc.stops.length) :
    (∀ dep arr, a.departure = some dep → b.arrival = some arr → dep < arr →
      ∃ bs sid be eid,
        findStation (populate_station_info_and_count_verts mc date).1
          (mc.stops.getD a.stop_point "") = some bs ∧ (dep, sid) ∈ bs.times ∧
        findStation (populate_station_info_and_count_verts mc date).1
          (mc.stops.getD b.stop_point "") = some be ∧ (arr, eid) ∈ be.times ∧
        connectPair (populate_station_info_and_count_verts mc date).1 mc.stops g a b =
          some (addEdge g sid eid ((arr : Int) - (dep : Int))) ∧
        (sid, eid, (arr : Int) - (dep : Int)) ∈
          addEdge g sid eid ((arr : Int) - (dep : Int))) ∧
    (optLe b.arrival a.departure = true →
      connectPair (populate_station_info_and_count_verts mc date).1 mc.stops g a b =
        some g) ∧
    (a.departure = none → b.arrival ≠ none →
      connectPair (populate_station_info_and_count_verts mc date).1 mc.stops g a b =
        none) := by
  have hamem : a ∈ j.passings := (mem_consecPairs hpair).1
  have hbmem : b ∈ j.passings := (mem_consecPairs hpair).2
  refine ⟨?_, ?_, ?_⟩
  · intro dep arr hdep harr hlt
    have hskip : ¬ optLe (some arr) (some dep) = true := by
      simp only [optLe, decide_eq_true_eq]
      omega
    have hsn : mc.stops[a.stop_point]? = some (mc.stops.getD a.stop_point "") :=
      getD_stops_eq (hwf a hamem)
    have hen : mc.stops[b.stop_point]? = some (mc.stops.getD b.stop_point "") :=
      getD_stops_eq (hwf b hbmem)
    obtain ⟨bs, hfs, hbsname⟩ := findStation_isSome mc date (getD_stops_mem (hwf a hamem))
    obtain ⟨be, hfe, hbename⟩ := findStation_isSome mc date (getD_stops_mem (hwf b hbmem))
    have hdepmem : dep ∈ collectStationTimes mc date (mc.stops.getD a.stop_point "") := by
      refine mem_collectStationTimes.mpr ⟨j, hj, a, hamem, rfl, ?_⟩
      unfold passingTimes
      rw [hdep]
      exact List.mem_append_right _ (List.mem_cons_self _ _)
    have harrmem : arr ∈ collectStationTimes mc date (mc.stops.getD b.stop_point "") := by
      refine mem_collectStationTimes.mpr ⟨j, hj, b, hbmem, rfl, ?_⟩
      unfold passingTimes
      rw [harr]
      exact List.mem_append_left _ (List.mem_cons_self _ _)
    have hbsshape := numberStations_shape (collectStationTimes mc date) (stationOrder mc) 0
      bs (findStation_mem hfs).1
    have hbeshape := numberStations_shape (collectStationTimes mc date) (stationOrder mc) 0
      be (findStation_mem hfe).1
    obtain ⟨sid, hft⟩ := findTime_isSome bs dep (by
      rw [hbsshape.2.1, hbsname]
      exact exists_assignTimes_of_mem (bs.init + 2) hdepmem)
    obtain ⟨eid, hfte⟩ := findTime_isSome be arr (by
      rw [hbeshape.2.1, hbename]
      exact exists_assignTimes_of_mem (be.init + 2) harrmem)
    refine ⟨bs, sid, be, eid, hfs, findTime_some hft, hfe, findTime_some hfte, ?_,
      mem_addEdge_self _ _ _ _⟩
    simp only [connectPair, hdep, harr, hsn, hen, hfs, hfe, hft, hfte, if_neg hskip]
  · intro hle
    unfold connectPair
    rw [if_pos hle]
  · intro hdep harrne
    cases harr : b.arrival with
    | none => exact absurd harr harrne
    | some arr =>
      have hskip : ¬ optLe b.arrival a.departure = true := by
        rw [hdep, harr]
        simp [optLe]
      unfold connectPair
      rw [if_neg hskip, hdep]

/-- Witness for the amended C2: applying the pair semantics to trip 1 of the
example feed (depart `A` at 200, arrive `C` at 300) yields exactly the travel
edge from time vertex 3 to time vertex 7 with weight 100. -/
theorem travel_pair_semantics_witness :
    connectPair (populate_station_info_and_count_verts cex1 0).1 cex1.stops []
      { stop_point := 0, arrival := none, departure := some 200 }
      { stop_point := 1, arrival := some 300, departure := none } =
      some (addEdge [] 3 7 100) := by
  have h := (travel_pair_semantics cex1 0 [] cexJourney1 (by decide)
    { stop_point := 0, arrival := none, departure := some 200 }
    { stop_point := 1, arrival := some 300, departure := none }
    (by decide) (by decide)).1 200 300 rfl rfl (by decide)
  obtain ⟨bs, sid, be, eid, hfs, hsid, hfe, heid, hcp, -⟩ := h
  have hbsv : findStation (populate_station_info_and_count_verts cex1 0).1
      (cex1.stops.getD 0 "") =
      some { name := "A", init := 0, fin := 1, times := [(100, 2), (200, 3)] } := by decide
  have hbev : findStation (populate_station_info_and_count_verts cex1 0).1
      (cex1.stops.getD 1 "") =
      some { name := "C", init := 4, fin := 5, times := [(250, 6), (300, 7)] } := by decide
  rw [hbsv] at hfs
  rw [hbev] at hfe
  have hbs := Option.some.inj hfs
  have hbe := Option.some.inj hfe
  rw [← hbs] at hsid
  rw [← hbe] at heid
  have hsid3 : sid = 3 := by simpa using hsid
  have heid7 : eid = 7 := by simpa using heid
  rw [hsid3, heid7] at hcp
  have hw : ((300 : Nat) : Int) - ((200 : Nat) : Int) = (100 : Int) := by norm_num
  rw [hw] at hcp
  exact hcp

theorem walk_weight_ge_potential {E : List Edge} {τ : Nat → Int}
    (hpot : ∀ e ∈ E, τ e.2.1 - τ e.1 ≤ e.2.2) :
    ∀ {u v : Nat} {c : Int}, Walk E u v c → τ v - τ u ≤ c := by
  intro u v c hw
  induction hw with
  | nil u => omega
  | cons hmem _ ih =>
    have := hpot _ hmem
    simp only at this
    omega

set_option maxRecDepth 4000 in
/-- C1 counterexample: on the two-trip example feed, the single-source distance
from station `A`'s `Init` (vertex 0) to station `C`'s `Final` (vertex 5) is 100
— the Bellman–Ford table over the built graph says so and an explicit walk of
weight 100 exists — yet every clock time at which any valid trip touches `C` is
250 or 300, so 100 is not the earliest possible arrival time at `C` (it is not
an arrival time at all): the `Init` fan-out edges have weight 0, so the distance
measures elapsed travel duration, not clock-time arrival. -/
theorem earliest_arrival_counterexample :
    (bfDist cexG.graph 8 0).getD 5 none = some 100 ∧
    Walk cexG.graph 0 5 100 ∧
    collectStationTimes cex1 0 "C" = [250, 300] ∧
    (100 : Nat) ∉ collectStationTimes cex1 0 "C" := by
  refine ⟨by decide, ?_, by decide, by decide⟩
  exact Walk.cons (show ((0 : Nat), (3 : Nat), (0 : Int)) ∈ cexG.graph by decide)
    (Walk.cons (show ((3 : Nat), (7 : Nat), (100 : Int)) ∈ cexG.graph by decide)
      (Walk.cons (show ((7 : Nat), (5 : Nat), (0 : Int)) ∈ cexG.graph by decide)
        (Walk.nil 5)))

/-- C1 amended: the shortest-path distance from `A`'s `Init` to `C`'s `Final`
equals the minimal elapsed travel duration (arrival minus boarding time over the
feasible trips), not the earliest clock-time arrival: on the example feed every
walk from vertex 0 to vertex 5 weighs at least 100, a walk of weight 100 exists
(so the distance is exactly 100 = min(300 − 200, 250 − 100), the smaller trip
duration), while the arrival times recorded at `C` are 250 and 300. -/
theorem earliest_arrival_amended :
    (∀ c : Int, Walk cexG.graph 0 5 c → 100 ≤ c) ∧
    Walk cexG.graph 0 5 100 ∧
    collectStationTimes cex1 0 "C" = [250, 300] ∧
    (100 : Int) = min ((300 : Int) - 200) ((250 : Int) - 100) := by
  refine ⟨?_, ?_, by decide, by norm_num⟩
  · intro c hw
    have hpot : ∀ e ∈ cexG.graph, cexPot e.2.1 - cexPot e.1 ≤ e.2.2 := by decide
    have hle := walk_weight_ge_potential hpot hw
    have h5 : cexPot 5 = 100 := rfl
    have h0 : cexPot 0 = 0 := rfl
    omega
  · exact Walk.cons (show ((0 : Nat), (3 : Nat), (0 : Int)) ∈ cexG.graph by decide)
      (Walk.cons (show ((3 : Nat), (7 : Nat), (100 : Int)) ∈ cexG.graph by decide)
        (Walk.cons (show ((7 : Nat), (5 : Nat), (0 : Int)) ∈ cexG.graph by decide)
          (Walk.nil 5)))

/-- Witness for the amended C1: the lower bound applied to the weight-100 walk. -/
theorem earliest_arrival_amended_witness : (100 : Int) ≤ 100 :=
  earliest_arrival_amended.1 100 earliest_arrival_amended.2.1
